import Mathlib

/-!
Verification of the DORM streaming SQL protocol (janwilmake/dorm).

This development shallowly embeds the core of the repository:

* the frame codec (newline-delimited JSON messages, `JSON.stringify` /
  `JSON.parse` restricted to the wire grammar of the four frame kinds);
* the client-side cursor `ClientSqlCursor` and its `_processStreamMessage`
  state machine (src/unnamed/part_006);
* the incremental stream consumer inside the client `exec` function:
  buffering, newline splitting, the 1 MB buffer bound and end-of-stream
  handling (src/unnamed/part_006, `exec`);
* the pull-driven stream producer of the Durable Object (src/src/DORM.ts,
  `pull`);
* the retry loop of the transport wrapper (src/unnamed/part_006, `exec`);
* the batch ("transaction") execution path and the mirrored execution path
  of the middleware (src/mod.ts).

JavaScript strings are embedded as `List Char`; machine numbers are `Nat`
or `Int`.  Frame payload scalars are embedded by `JsonValue`.
-/

namespace Dorm

/-- A JavaScript string, embedded as its list of characters. -/
abbrev JStr := List Char

/-- Character list of a Lean string literal (used to transcribe the string
literals of the source). -/
def lit (s : String) : List Char := s.data

/-- A JSON scalar value as carried in `row` frame payloads
(`SqlStorageValue`: string, number, boolean or null; numbers restricted to
integers). -/
inductive JsonValue where
  | str (s : JStr)
  | int (n : Int)
  | bool (b : Bool)
  | null
deriving DecidableEq, Repr

/-- A stream protocol message (`StreamMessage` in src/unnamed/part_006):
`{type:"columns"|"row"|"meta"|"error", data?, error?}`. -/
inductive StreamMessage where
  | columns (data : List JStr)
  | row (data : List JsonValue)
  | meta (rows_read rows_written : Nat)
  | error (msg : JStr)
deriving DecidableEq, Repr

/-- The mutable state of `ClientSqlCursor` (src/unnamed/part_006, lines
20-164). -/
structure ClientSqlCursor where
  columnNames : List JStr
  rows : List (List JsonValue)
  rowsRead : Nat
  rowsWritten : Nat
  currentIndex : Nat
  initialized : Bool
  error : Option JStr
  streamingComplete : Bool
deriving DecidableEq, Repr

/-- A freshly constructed `ClientSqlCursor`: everything empty, counters 0,
flags false. -/
def ClientSqlCursor.init : ClientSqlCursor :=
  { columnNames := [], rows := [], rowsRead := 0, rowsWritten := 0,
    currentIndex := 0, initialized := false, error := none,
    streamingComplete := false }

/-- `_completeStreaming`: sets `_streamingComplete` (and resolves the
streaming promise) if it was not yet set; the field update is idempotent. -/
def completeStreaming (c : ClientSqlCursor) : ClientSqlCursor :=
  { c with streamingComplete := true }

/-- `_processStreamMessage`: applies one stream message to the cursor.
`columns` replaces the column names; `row` appends; `meta` sets the
counters, marks `initialized` and completes streaming; `error` sets the
error field (`message.error || "Unknown error"`, so an empty message is
replaced) and completes streaming.  Note that no case is guarded on
`_streamingComplete`. -/
def processStreamMessage (c : ClientSqlCursor) (m : StreamMessage) : ClientSqlCursor :=
  match m with
  | .columns data => { c with columnNames := data }
  | .row data => { c with rows := c.rows ++ [data] }
  | .meta r w =>
      completeStreaming { c with rowsRead := r, rowsWritten := w, initialized := true }
  | .error msg =>
      completeStreaming { c with error := some (if msg = [] then lit "Unknown error" else msg) }

/-- An event observed by the cursor during streaming: a decoded message, or
the end of the response stream (the `done` branch of the read loop, which
calls `_completeStreaming`). -/
inductive StreamEvent where
  | msg (m : StreamMessage)
  | eof
deriving DecidableEq, Repr

/-- Apply one stream event to the cursor. -/
def applyEvent (c : ClientSqlCursor) : StreamEvent → ClientSqlCursor
  | .msg m => processStreamMessage c m
  | .eof => completeStreaming c

/-- Cursor state after the first `t` events of a schedule have been
processed, starting from a fresh cursor. -/
def stateAt (evs : List StreamEvent) (t : Nat) : ClientSqlCursor :=
  (evs.take t).foldl applyEvent ClientSqlCursor.init

/-- Does this event resolve the streaming promise (a `meta` or `error`
message, or end of stream)? -/
def completesEvent : StreamEvent → Bool
  | .msg (.meta _ _) => true
  | .msg (.error _) => true
  | .msg _ => false
  | .eof => true

/-- Does this message complete streaming (`meta` or `error`)? -/
def completesMessage : StreamMessage → Bool
  | .meta _ _ => true
  | .error _ => true
  | _ => false

/-! ## Frame codec: encoding

The producer serializes each message with `JSON.stringify(message) + "\n"`.
The encoder below produces exactly the characters `JSON.stringify` emits
for the four message shapes, including its string escaping rules. -/

/-- The hexadecimal digit character `JSON.stringify` uses in `\uXXXX`
escapes (lowercase). -/
def hexDigitChar (d : Nat) : Char :=
  if d < 10 then Char.ofNat (48 + d) else Char.ofNat (87 + d)

/-- `JSON.stringify` escaping of one character inside a string literal:
quote, backslash and the named control escapes get two-character escapes,
other control characters below 0x20 get `\u00XX`, everything else is
emitted verbatim. -/
def escapeChar (c : Char) : List Char :=
  if c = '"' then ['\\', '"']
  else if c = '\\' then ['\\', '\\']
  else if c = '\n' then ['\\', 'n']
  else if c = '\r' then ['\\', 'r']
  else if c = '\t' then ['\\', 't']
  else if c.toNat = 8 then ['\\', 'b']
  else if c.toNat = 12 then ['\\', 'f']
  else if c.toNat < 32 then
    ['\\', 'u', '0', '0', hexDigitChar (c.toNat / 16), hexDigitChar (c.toNat % 16)]
  else [c]

/-- Body of a JSON string literal: every character escaped. -/
def encStringBody (s : JStr) : List Char := s.flatMap escapeChar

/-- A JSON string literal: `"` body `"`. -/
def encString (s : JStr) : List Char := '"' :: encStringBody s ++ ['"']

/-- Decimal digit character. -/
def digitChar (d : Nat) : Char := Char.ofNat (48 + d)

/-- Decimal digits of `n`, most significant first, by structural recursion
on a fuel bound (any `fuel > n` is enough, since `n / 10 < n` for
`n ≥ 10`). -/
def natCharsAux (fuel n : Nat) : List Char :=
  match fuel with
  | 0 => []
  | fuel + 1 =>
    if n < 10 then [digitChar n]
    else natCharsAux fuel (n / 10) ++ [digitChar (n % 10)]

/-- Decimal representation of a natural number, most significant digit
first (the characters of JavaScript's `String(n)`). -/
def natChars (n : Nat) : List Char := natCharsAux (n + 1) n

/-- Decimal representation of an integer (JavaScript `String(i)`). -/
def intChars (i : Int) : List Char :=
  if i < 0 then '-' :: natChars i.natAbs else natChars i.toNat

/-- JSON serialization of a scalar value. -/
def encValue : JsonValue → List Char
  | .str s => encString s
  | .int n => intChars n
  | .bool true => lit "true"
  | .bool false => lit "false"
  | .null => lit "null"

/-- Comma-separated serialization of the elements of a JSON array (without
the surrounding brackets). -/
def encSep (enc : α → List Char) : List α → List Char
  | [] => []
  | [x] => enc x
  | x :: y :: xs => enc x ++ ',' :: encSep enc (y :: xs)

/-- `JSON.stringify` of one stream message, exactly as the producer builds
it (src/src/DORM.ts `pull`): field order `type` then `data` (or `error`). -/
def encFrame : StreamMessage → List Char
  | .columns names =>
      lit "\x7b\"type\":\"columns\",\"data\":[" ++ encSep encString names ++ lit "]\x7d"
  | .row vals =>
      lit "\x7b\"type\":\"row\",\"data\":[" ++ encSep encValue vals ++ lit "]\x7d"
  | .meta r w =>
      lit "\x7b\"type\":\"meta\",\"data\":\x7b\"rows_read\":" ++ natChars r ++
        lit ",\"rows_written\":" ++ natChars w ++ lit "\x7d\x7d"
  | .error msg =>
      lit "\x7b\"type\":\"error\",\"error\":" ++ encString msg ++ lit "\x7d"

/-! ## Frame codec: decoding

The consumer decodes each complete line with `JSON.parse(line)` and then
dispatches on the `type` discriminator.  The parser below accepts exactly
the canonical serializations the producer emits (the wire grammar of §6);
any other line fails to parse, which models the logged-and-dropped
`JSON.parse` failure. -/

/-- Consume an expected literal from the front of the input. -/
def stripPre : List Char → List Char → Option (List Char)
  | [], s => some s
  | _ :: _, [] => none
  | p :: ps, c :: cs => if c = p then stripPre ps cs else none

/-- Value of one hexadecimal digit character. -/
def hexVal (c : Char) : Option Nat :=
  if 48 ≤ c.toNat ∧ c.toNat ≤ 57 then some (c.toNat - 48)
  else if 97 ≤ c.toNat ∧ c.toNat ≤ 102 then some (c.toNat - 87)
  else if 65 ≤ c.toNat ∧ c.toNat ≤ 70 then some (c.toNat - 55)
  else none

/-- The character named by a two-character JSON escape `\x`. -/
def unescapeChar (c : Char) : Option Char :=
  if c = '"' then some '"'
  else if c = '\\' then some '\\'
  else if c = '/' then some '/'
  else if c = 'b' then some (Char.ofNat 8)
  else if c = 'f' then some (Char.ofNat 12)
  else if c = 'n' then some '\n'
  else if c = 'r' then some '\r'
  else if c = 't' then some '\t'
  else none

/-- Parse the body of a JSON string literal (the opening quote already
consumed), through its closing quote; returns the decoded characters and
the remaining input. -/
def parseStringBody : List Char → Option (JStr × List Char)
  | [] => none
  | c :: rest =>
    if c = '"' then some ([], rest)
    else if c = '\\' then
      match rest with
      | [] => none
      | e :: rest2 =>
        if e = 'u' then
          match rest2 with
          | h1 :: h2 :: h3 :: h4 :: rest3 =>
            match hexVal h1, hexVal h2, hexVal h3, hexVal h4, parseStringBody rest3 with
            | some a, some b, some c3, some d, some (t, r) =>
                some (Char.ofNat (((a * 16 + b) * 16 + c3) * 16 + d) :: t, r)
            | _, _, _, _, _ => none
          | _ => none
        else
          match unescapeChar e, parseStringBody rest2 with
          | some u, some (t, r) => some (u :: t, r)
          | _, _ => none
    else
      match parseStringBody rest with
      | some (t, r) => some (c :: t, r)
      | none => none

/-- Is this a decimal digit character? -/
def isDigitCh (c : Char) : Bool := 48 ≤ c.toNat && c.toNat ≤ 57

/-- Split the longest digit run off the front of the input. -/
def takeDigits : List Char → List Char × List Char
  | [] => ([], [])
  | c :: rest =>
    if isDigitCh c then
      let (d, r) := takeDigits rest
      (c :: d, r)
    else ([], c :: rest)

/-- Numeric value of a digit run (most significant first). -/
def digitsToNat (ds : List Char) : Nat :=
  ds.foldl (fun acc c => acc * 10 + (c.toNat - 48)) 0

/-- Parse a decimal natural number (at least one digit). -/
def parseNat (s : List Char) : Option (Nat × List Char) :=
  match takeDigits s with
  | ([], _) => none
  | (ds, r) => some (digitsToNat ds, r)

/-- Parse a decimal integer (optional minus sign). -/
def parseInt (s : List Char) : Option (Int × List Char) :=
  match s with
  | [] => none
  | c :: rest =>
    if c = '-' then (parseNat rest).map fun (n, r) => (-(n : Int), r)
    else (parseNat (c :: rest)).map fun (n, r) => ((n : Int), r)

/-- Parse one JSON scalar value. -/
def parseValue (s : List Char) : Option (JsonValue × List Char) :=
  match s with
  | [] => none
  | c :: rest =>
    if c = '"' then (parseStringBody rest).map fun (t, r) => (JsonValue.str t, r)
    else if c = 't' then (stripPre (lit "rue") rest).map fun r => (JsonValue.bool true, r)
    else if c = 'f' then (stripPre (lit "alse") rest).map fun r => (JsonValue.bool false, r)
    else if c = 'n' then (stripPre (lit "ull") rest).map fun r => (JsonValue.null, r)
    else (parseInt (c :: rest)).map fun (i, r) => (JsonValue.int i, r)

theorem stripPre_length {p s r : List Char} (h : stripPre p s = some r) :
    r.length + p.length = s.length := by
  induction p generalizing s with
  | nil =>
      simp only [stripPre, Option.some.injEq] at h
      simp [← h]
  | cons a ps ih =>
      cases s with
      | nil => simp [stripPre] at h
      | cons c cs =>
          simp only [stripPre] at h
          split at h
          · have := ih h; simp only [List.length_cons]; omega
          · exact absurd h (by simp)

theorem parseStringBody_length {s : List Char} {t r : JStr}
    (h : parseStringBody s = some (t, r)) : r.length < s.length := by
  induction s using parseStringBody.induct generalizing t r
  all_goals rw [parseStringBody.eq_def] at h
  all_goals simp_all
  all_goals omega

theorem takeDigits_append (s : List Char) :
    s = (takeDigits s).1 ++ (takeDigits s).2 := by
  induction s with
  | nil => simp [takeDigits]
  | cons c rest ih =>
      simp only [takeDigits]
      split
      · simpa using ih
      · simp

theorem parseNat_length {s : List Char} {n : Nat} {r : List Char}
    (h : parseNat s = some (n, r)) : r.length < s.length := by
  unfold parseNat at h
  have hs := takeDigits_append s
  rcases htd : takeDigits s with ⟨ds, rest⟩
  rw [htd] at h hs
  cases ds with
  | nil => simp at h
  | cons d ds' =>
      simp only [Option.some.injEq, Prod.mk.injEq] at h
      rw [hs, ← h.2]
      simp only [List.length_append, List.length_cons]
      omega

theorem parseInt_length {s : List Char} {i : Int} {r : List Char}
    (h : parseInt s = some (i, r)) : r.length < s.length := by
  cases s with
  | nil => simp [parseInt] at h
  | cons c rest =>
      simp only [parseInt] at h
      split_ifs at h
      · rcases hp : parseNat rest with _ | ⟨n, r'⟩ <;> rw [hp] at h <;> simp at h
        have := parseNat_length hp
        rw [← h.2]
        simp only [List.length_cons]; omega
      · rcases hp : parseNat (c :: rest) with _ | ⟨n, r'⟩ <;> rw [hp] at h <;> simp at h
        have := parseNat_length hp
        rw [← h.2]; exact this

theorem parseValue_length {s : List Char} {v : JsonValue} {r : List Char}
    (h : parseValue s = some (v, r)) : r.length < s.length := by
  cases s with
  | nil => simp [parseValue] at h
  | cons c rest =>
      simp only [parseValue] at h
      split_ifs at h
      · rcases hp : parseStringBody rest with _ | ⟨t, r'⟩ <;> rw [hp] at h <;> simp at h
        have := parseStringBody_length hp
        rw [← h.2]
        simp only [List.length_cons]; omega
      · rcases hp : stripPre (lit "rue") rest with _ | r' <;> rw [hp] at h <;> simp at h
        have := stripPre_length hp
        rw [← h.2]
        simp only [lit, List.length_cons] at *
        omega
      · rcases hp : stripPre (lit "alse") rest with _ | r' <;> rw [hp] at h <;> simp at h
        have := stripPre_length hp
        rw [← h.2]
        simp only [lit, List.length_cons] at *
        omega
      · rcases hp : stripPre (lit "ull") rest with _ | r' <;> rw [hp] at h <;> simp at h
        have := stripPre_length hp
        rw [← h.2]
        simp only [lit, List.length_cons] at *
        omega
      · rcases hp : parseInt (c :: rest) with _ | ⟨i, r'⟩ <;> rw [hp] at h <;> simp at h
        have := parseInt_length hp
        rw [← h.2]; exact this

/-- Parse the comma-separated elements of a JSON array through the closing
`]` (the opening `[` already consumed), by structural recursion on a fuel
bound; every parsed element consumes at least one character, so any
`fuel > number of elements` is enough.  An empty array is closed by an
immediate `]`. -/
def parseValuesNone : List Char → Option (List JsonValue × List Char)
  | ']' :: rest => some ([], rest)
  | _ => none

/-- Continue an array parse after one element `v`: a `,` demands another
element, a `]` closes the array. -/
def parseValuesCont (recur : List Char → Option (List JsonValue × List Char))
    (v : JsonValue) : List Char → Option (List JsonValue × List Char)
  | ',' :: r2 => (recur r2).map fun (vs, rr) => (v :: vs, rr)
  | ']' :: r2 => some ([v], r2)
  | _ => none

def parseValuesF : Nat → List Char → Option (List JsonValue × List Char)
  | 0, _ => none
  | fuel + 1, s =>
    match parseValue s with
    | none => parseValuesNone s
    | some (v, r) => parseValuesCont (parseValuesF fuel) v r

/-- Parse the comma-separated elements of a JSON array through the closing
`]`; `s.length + 1` fuel always suffices because each element consumes at
least one character. -/
def parseValues (s : List Char) : Option (List JsonValue × List Char) :=
  parseValuesF (s.length + 1) s

/-- Require every element of a decoded array to be a string (the `data` of
a `columns` frame). -/
def asStrings : List JsonValue → Option (List JStr)
  | [] => some []
  | .str s :: rest => (asStrings rest).map (s :: ·)
  | _ => none

/-- `JSON.parse` of one line of the stream, followed by the `type`
dispatch of `_processStreamMessage`, restricted to the canonical wire
grammar (§6): returns the decoded message, or `none` for any line that is
not a canonical serialization of a frame (the consumer logs and drops such
lines). -/
def parseFrame (s : List Char) : Option StreamMessage :=
  match stripPre (lit "\x7b\"type\":\"") s with
  | none => none
  | some r =>
    match stripPre (lit "columns\",\"data\":[") r with
    | some r2 =>
      match parseValues r2 with
      | some (vs, rest) =>
        if rest = ['}'] then (asStrings vs).map StreamMessage.columns else none
      | none => none
    | none =>
      match stripPre (lit "row\",\"data\":[") r with
      | some r2 =>
        match parseValues r2 with
        | some (vs, rest) => if rest = ['}'] then some (.row vs) else none
        | none => none
      | none =>
        match stripPre (lit "meta\",\"data\":\x7b\"rows_read\":") r with
        | some r2 =>
          match parseNat r2 with
          | some (rr, r3) =>
            match stripPre (lit ",\"rows_written\":") r3 with
            | some r4 =>
              match parseNat r4 with
              | some (rw, r5) => if r5 = lit "\x7d\x7d" then some (.meta rr rw) else none
              | none => none
            | none => none
          | none => none
        | none =>
          match stripPre (lit "error\",\"error\":\"") r with
          | some r2 =>
            match parseStringBody r2 with
            | some (msg, rest) => if rest = ['}'] then some (.error msg) else none
            | none => none
          | none => none

/-! ## Codec round trip: parsing inverts encoding -/

theorem stripPre_self (p r : List Char) : stripPre p (p ++ r) = some r := by
  induction p with
  | nil => rfl
  | cons a ps ih => simp [stripPre, ih]

theorem stripPre_head_ne {c d : Char} (h : d ≠ c) (q t : List Char) :
    stripPre (c :: q) (d :: t) = none := by
  simp [stripPre, h]

/-- Does the input begin with a decimal digit (so that a digit run before
it would be extended)? -/
def startsDigit : List Char → Bool
  | [] => false
  | c :: _ => isDigitCh c

theorem takeDigits_of_digits {d : List Char} (hd : ∀ c ∈ d, isDigitCh c = true)
    {r : List Char} (hr : startsDigit r = false) :
    takeDigits (d ++ r) = (d, r) := by
  induction d with
  | nil =>
      cases r with
      | nil => rfl
      | cons c cs => simp_all [takeDigits, startsDigit]
  | cons a d' ih =>
      have ha : isDigitCh a = true := hd a (by simp)
      simp only [List.cons_append, takeDigits, ha, if_true, List.append_eq]
      rw [ih (fun c hc => hd c (by simp [hc]))]

theorem natCharsAux_digits {fuel n : Nat} (h : n < fuel) :
    ∀ c ∈ natCharsAux fuel n, isDigitCh c = true := by
  induction fuel generalizing n with
  | zero => omega
  | succ fuel ih =>
      intro c hc
      simp only [natCharsAux] at hc
      split at hc
      · rename_i h10
        simp only [List.mem_singleton] at hc
        subst hc
        interval_cases n <;> decide
      · rename_i h10
        rcases List.mem_append.mp hc with h1 | h2
        · exact ih (by omega) c h1
        · simp only [List.mem_singleton] at h2
          subst h2
          have : n % 10 < 10 := Nat.mod_lt _ (by omega)
          interval_cases hm : (n % 10) <;> simp_all [digitChar] <;> decide

theorem natCharsAux_ne_nil {fuel n : Nat} (h : n < fuel) :
    natCharsAux fuel n ≠ [] := by
  cases fuel with
  | zero => omega
  | succ fuel =>
      simp only [natCharsAux]
      split <;> simp

theorem digitChar_toNat {d : Nat} (h : d < 10) : (digitChar d).toNat = 48 + d := by
  interval_cases d <;> decide

theorem digitsToNat_append_digit (ds : List Char) (c : Char) :
    digitsToNat (ds ++ [c]) = digitsToNat ds * 10 + (c.toNat - 48) := by
  simp [digitsToNat, List.foldl_append]

theorem digitsToNat_natCharsAux {fuel n : Nat} (h : n < fuel) :
    digitsToNat (natCharsAux fuel n) = n := by
  induction fuel generalizing n with
  | zero => omega
  | succ fuel ih =>
      simp only [natCharsAux]
      split
      · rename_i h10
        simp [digitsToNat, digitChar_toNat h10]
      · rename_i h10
        rw [digitsToNat_append_digit, ih (by omega),
          digitChar_toNat (Nat.mod_lt _ (by omega))]
        omega

theorem parseNat_natChars {n : Nat} {rest : List Char}
    (hr : startsDigit rest = false) :
    parseNat (natChars n ++ rest) = some (n, rest) := by
  unfold parseNat natChars
  rw [takeDigits_of_digits (natCharsAux_digits (by omega)) hr]
  rcases hnc : natCharsAux (n + 1) n with _ | ⟨d, ds⟩
  · exact absurd hnc (natCharsAux_ne_nil (by omega))
  · show some (digitsToNat (d :: ds), rest) = some (n, rest)
    rw [← hnc, digitsToNat_natCharsAux (show n < n + 1 by omega)]

theorem digit_ne_of_lt {c : Char} (h : isDigitCh c = true) {d : Char}
    (hd : d.toNat < 48 ∨ 57 < d.toNat) : c ≠ d := by
  intro hcd
  subst hcd
  simp [isDigitCh] at h
  omega

theorem parseInt_intChars {i : Int} {rest : List Char}
    (hr : startsDigit rest = false) :
    parseInt (intChars i ++ rest) = some (i, rest) := by
  unfold intChars
  split
  · rename_i hneg
    simp only [List.cons_append, parseInt, if_pos rfl]
    rw [parseNat_natChars hr]
    have hi : -((i.natAbs : Nat) : Int) = i := by omega
    show some (-((i.natAbs : Nat) : Int), rest) = some (i, rest)
    rw [hi]
  · rename_i hpos
    rcases hx : natCharsAux (i.toNat + 1) i.toNat with _ | ⟨d, ds⟩
    · exact absurd hx (natCharsAux_ne_nil (by omega))
    · have hmem : d ∈ natCharsAux (i.toNat + 1) i.toNat := by rw [hx]; simp
      have hd : isDigitCh d = true :=
        natCharsAux_digits (show i.toNat < i.toNat + 1 by omega) d hmem
      have hsplit : natChars i.toNat ++ rest = d :: (ds ++ rest) := by
        unfold natChars; rw [hx]; simp
      rw [hsplit]
      simp only [parseInt]
      rw [if_neg (digit_ne_of_lt hd (by left; decide))]
      rw [← hsplit, parseNat_natChars hr]
      have hi : ((i.toNat : Nat) : Int) = i := by omega
      show some (((i.toNat : Nat) : Int), rest) = some (i, rest)
      rw [hi]

theorem hexVal_hexDigitChar {d : Nat} (h : d < 16) :
    hexVal (hexDigitChar d) = some d := by
  interval_cases d <;> decide

theorem parseStringBody_enc (s : JStr) (rest : List Char) :
    parseStringBody (encStringBody s ++ '"' :: rest) = some (s, rest) := by
  induction s with
  | nil =>
      show parseStringBody ([].flatMap escapeChar ++ '"' :: rest) = some ([], rest)
      rw [List.flatMap_nil, List.nil_append, parseStringBody.eq_def]
      simp
  | cons c s' ih =>
      have hsplit : encStringBody (c :: s') = escapeChar c ++ encStringBody s' := by
        simp [encStringBody]
      rw [hsplit, List.append_assoc]
      unfold escapeChar
      split_ifs with h1 h2 h3 h4 h5 h6 h7 h8
      · subst h1
        rw [List.cons_append, List.cons_append, List.nil_append, parseStringBody.eq_def]
        simp [unescapeChar, ih]
      · subst h2
        rw [List.cons_append, List.cons_append, List.nil_append, parseStringBody.eq_def]
        simp [unescapeChar, ih]
      · subst h3
        rw [List.cons_append, List.cons_append, List.nil_append, parseStringBody.eq_def]
        simp [unescapeChar, ih]
      · subst h4
        rw [List.cons_append, List.cons_append, List.nil_append, parseStringBody.eq_def]
        simp [unescapeChar, ih]
      · subst h5
        rw [List.cons_append, List.cons_append, List.nil_append, parseStringBody.eq_def]
        simp [unescapeChar, ih]
      · have hc : Char.ofNat 8 = c := by rw [← h6]; exact Char.ofNat_toNat c
        rw [List.cons_append, List.cons_append, List.nil_append, parseStringBody.eq_def]
        simp [unescapeChar, ih, hc]
        exact hc
      · have hc : Char.ofNat 12 = c := by rw [← h7]; exact Char.ofNat_toNat c
        rw [List.cons_append, List.cons_append, List.nil_append, parseStringBody.eq_def]
        simp [unescapeChar, ih, hc]
        exact hc
      · have hq : hexVal (hexDigitChar (c.toNat / 16)) = some (c.toNat / 16) :=
          hexVal_hexDigitChar (by omega)
        have hr2 : hexVal (hexDigitChar (c.toNat % 16)) = some (c.toNat % 16) :=
          hexVal_hexDigitChar (by omega)
        have harith : ((0 * 16 + 0) * 16 + c.toNat / 16) * 16 + c.toNat % 16 = c.toNat := by
          omega
        have harith2 : c.toNat / 16 * 16 + c.toNat % 16 = c.toNat := by omega
        have h0 : hexVal '0' = some 0 := by decide
        rw [List.cons_append, List.cons_append, List.cons_append, List.cons_append,
          List.cons_append, List.cons_append, List.nil_append, parseStringBody.eq_def]
        simp [h0, hq, hr2, ih, harith, harith2, Char.ofNat_toNat]
      · rw [List.cons_append, List.nil_append, parseStringBody.eq_def]
        simp [h1, h2, ih]

theorem parseValue_enc {v : JsonValue} {rest : List Char}
    (hr : startsDigit rest = false) :
    parseValue (encValue v ++ rest) = some (v, rest) := by
  cases v with
  | str s =>
      show parseValue ('"' :: encStringBody s ++ ['"'] ++ rest) = _
      rw [List.cons_append, List.cons_append, List.append_assoc, List.singleton_append]
      rw [parseValue.eq_def]
      simp [parseStringBody_enc]
  | int i =>
      show parseValue (intChars i ++ rest) = some (JsonValue.int i, rest)
      rcases hic : intChars i ++ rest with _ | ⟨d, tail⟩
      · exfalso
        rcases List.append_eq_nil.mp hic with ⟨h1, _⟩
        unfold intChars at h1
        split at h1
        · simp at h1
        · exact natCharsAux_ne_nil (by omega) h1
      · have hd : isDigitCh d = true ∨ d = '-' := by
          unfold intChars at hic
          split at hic
          · simp only [List.cons_append, List.cons.injEq] at hic
            right; exact hic.1.symm
          · unfold natChars at hic
            rcases hx : natCharsAux (i.toNat + 1) i.toNat with _ | ⟨e, es⟩
            · exact absurd hx (natCharsAux_ne_nil (by omega))
            · rw [hx] at hic
              simp only [List.cons_append, List.cons.injEq] at hic
              left
              rw [← hic.1]
              exact natCharsAux_digits (show i.toNat < i.toNat + 1 by omega) e (by rw [hx]; simp)
        have hne : ∀ x : Char, x.toNat < 45 ∨ 57 < x.toNat → d ≠ x := by
          intro x hx hdx
          rcases hd with h | h
          · rw [hdx] at h
            simp only [isDigitCh, Bool.and_eq_true, decide_eq_true_eq] at h
            omega
          · rw [hdx] at h
            subst h
            revert hx
            decide
        rw [parseValue.eq_def]
        simp only [if_neg (hne '"' (by left; decide)), if_neg (hne 't' (by right; decide)),
          if_neg (hne 'f' (by right; decide)), if_neg (hne 'n' (by right; decide))]
        rw [← hic, parseInt_intChars hr]
        rfl
  | bool b =>
      cases b with
      | true =>
          show parseValue ('t' :: (lit "rue" ++ rest)) = _
          rw [parseValue.eq_def]
          simp [stripPre_self]
      | false =>
          show parseValue ('f' :: (lit "alse" ++ rest)) = _
          rw [parseValue.eq_def]
          simp [stripPre_self]
  | null =>
      show parseValue ('n' :: (lit "ull" ++ rest)) = _
      rw [parseValue.eq_def]
      simp [stripPre_self]

theorem parseValue_rbracket (rest : List Char) :
    parseValue (']' :: rest) = none := by
  rw [parseValue.eq_def]
  have h1 : parseInt (']' :: rest) = none := by
    rw [parseInt.eq_def]
    have h2 : parseNat (']' :: rest) = none := by
      unfold parseNat
      rw [takeDigits.eq_def]
      simp [isDigitCh]
    simp [h2]
  simp [h1]

theorem parseValuesF_succ (fuel : Nat) (s : List Char) :
    parseValuesF (fuel + 1) s =
      match parseValue s with
      | none => parseValuesNone s
      | some (v, r) => parseValuesCont (parseValuesF fuel) v r := rfl

theorem parseValuesF_enc {vs : List JsonValue} {fuel : Nat} {rest : List Char}
    (hfuel : vs.length < fuel) :
    parseValuesF fuel (encSep encValue vs ++ ']' :: rest) = some (vs, rest) := by
  induction vs generalizing fuel with
  | nil =>
      cases fuel with
      | zero => omega
      | succ f =>
          show parseValuesF (f + 1) (']' :: rest) = _
          rw [parseValuesF_succ, parseValue_rbracket]
          rfl
  | cons v vs' ih =>
      cases fuel with
      | zero => omega
      | succ f =>
          cases vs' with
          | nil =>
              show parseValuesF (f + 1) (encValue v ++ ']' :: rest) = _
              rw [parseValuesF_succ, parseValue_enc (by rfl)]
              rfl
          | cons w ws =>
              have hsep : encSep encValue (v :: w :: ws) ++ ']' :: rest =
                  encValue v ++ (',' :: (encSep encValue (w :: ws) ++ ']' :: rest)) := by
                show (encValue v ++ ',' :: encSep encValue (w :: ws)) ++ ']' :: rest = _
                simp
              rw [hsep, parseValuesF_succ, parseValue_enc (by rfl)]
              have hlen : (w :: ws).length < f := by
                simp only [List.length_cons] at hfuel ⊢
                omega
              simp [parseValuesCont, ih hlen]

theorem encValue_ne_nil (v : JsonValue) : encValue v ≠ [] := by
  cases v with
  | str s => simp [encValue, encString]
  | int i =>
      simp only [encValue]
      unfold intChars
      split
      · simp
      · exact natCharsAux_ne_nil (by omega)
  | bool b => cases b <;> simp [encValue, lit]
  | null => simp [encValue, lit]

theorem encSep_length_ge (vs : List JsonValue) :
    vs.length ≤ (encSep encValue vs).length := by
  induction vs with
  | nil => simp [encSep]
  | cons v vs' ih =>
      cases vs' with
      | nil =>
          have := encValue_ne_nil v
          have : 1 ≤ (encValue v).length := by
            rcases hx : encValue v with _ | _
            · exact absurd hx this
            · simp
          simpa [encSep]
      | cons w ws =>
          have h1 := encValue_ne_nil v
          have h2 : 1 ≤ (encValue v).length := by
            rcases hx : encValue v with _ | _
            · exact absurd hx h1
            · simp
          show (w :: ws).length + 1 ≤ ((encValue v ++ ',' :: encSep encValue (w :: ws))).length
          simp only [List.length_append, List.length_cons] at ih ⊢
          omega

theorem parseValues_enc (vs : List JsonValue) (rest : List Char) :
    parseValues (encSep encValue vs ++ ']' :: rest) = some (vs, rest) := by
  unfold parseValues
  refine parseValuesF_enc ?_
  have := encSep_length_ge vs
  simp only [List.length_append, List.length_cons]
  omega

theorem encSep_map_str (names : List JStr) :
    encSep encString names = encSep encValue (names.map JsonValue.str) := by
  induction names with
  | nil => rfl
  | cons x xs ih =>
      cases xs with
      | nil => rfl
      | cons y ys =>
          show encString x ++ ',' :: encSep encString (y :: ys) = _
          rw [ih]
          rfl

theorem asStrings_map (names : List JStr) :
    asStrings (names.map JsonValue.str) = some names := by
  induction names with
  | nil => rfl
  | cons x xs ih => simp [asStrings, ih]

/-- Parsing inverts encoding: `JSON.parse` of a line the producer emitted
recovers exactly the frame that was serialized. -/
theorem parseFrame_encFrame (m : StreamMessage) :
    parseFrame (encFrame m) = some m := by
  have hcr : ∀ X : List Char,
      stripPre (lit "columns\",\"data\":[") (lit "row\",\"data\":[" ++ X) = none := by
    intro X
    show stripPre ('c' :: lit "olumns\",\"data\":[") ('r' :: (lit "ow\",\"data\":[" ++ X)) = none
    exact stripPre_head_ne (by decide) _ _
  have hcm : ∀ X : List Char,
      stripPre (lit "columns\",\"data\":[") (lit "meta\",\"data\":\x7b\"rows_read\":" ++ X) = none := by
    intro X
    show stripPre ('c' :: lit "olumns\",\"data\":[")
      ('m' :: (lit "eta\",\"data\":\x7b\"rows_read\":" ++ X)) = none
    exact stripPre_head_ne (by decide) _ _
  have hce : ∀ X : List Char,
      stripPre (lit "columns\",\"data\":[") (lit "error\",\"error\":" ++ X) = none := by
    intro X
    show stripPre ('c' :: lit "olumns\",\"data\":[") ('e' :: (lit "rror\",\"error\":" ++ X)) = none
    exact stripPre_head_ne (by decide) _ _
  have hrm : ∀ X : List Char,
      stripPre (lit "row\",\"data\":[") (lit "meta\",\"data\":\x7b\"rows_read\":" ++ X) = none := by
    intro X
    show stripPre ('r' :: lit "ow\",\"data\":[")
      ('m' :: (lit "eta\",\"data\":\x7b\"rows_read\":" ++ X)) = none
    exact stripPre_head_ne (by decide) _ _
  have hre : ∀ X : List Char,
      stripPre (lit "row\",\"data\":[") (lit "error\",\"error\":" ++ X) = none := by
    intro X
    show stripPre ('r' :: lit "ow\",\"data\":[") ('e' :: (lit "rror\",\"error\":" ++ X)) = none
    exact stripPre_head_ne (by decide) _ _
  have hme : ∀ X : List Char,
      stripPre (lit "meta\",\"data\":\x7b\"rows_read\":") (lit "error\",\"error\":" ++ X) = none := by
    intro X
    show stripPre ('m' :: lit "eta\",\"data\":\x7b\"rows_read\":")
      ('e' :: (lit "rror\",\"error\":" ++ X)) = none
    exact stripPre_head_ne (by decide) _ _
  cases m with
  | columns names =>
      have hdec : lit "\x7b\"type\":\"columns\",\"data\":[" =
          lit "\x7b\"type\":\"" ++ lit "columns\",\"data\":[" := rfl
      show parseFrame ((lit "\x7b\"type\":\"columns\",\"data\":[" ++ encSep encString names) ++
        lit "]\x7d") = _
      rw [hdec, List.append_assoc, List.append_assoc]
      unfold parseFrame
      simp only [stripPre_self]
      rw [encSep_map_str, show lit "]\x7d" = ']' :: ['}'] from rfl, parseValues_enc]
      simp [asStrings_map]
  | row vals =>
      have hdec : lit "\x7b\"type\":\"row\",\"data\":[" =
          lit "\x7b\"type\":\"" ++ lit "row\",\"data\":[" := rfl
      show parseFrame ((lit "\x7b\"type\":\"row\",\"data\":[" ++ encSep encValue vals) ++
        lit "]\x7d") = _
      rw [hdec, List.append_assoc, List.append_assoc]
      unfold parseFrame
      simp only [stripPre_self, hcr]
      rw [show lit "]\x7d" = ']' :: ['}'] from rfl, parseValues_enc]
      simp
  | meta r w =>
      have hdec : lit "\x7b\"type\":\"meta\",\"data\":\x7b\"rows_read\":" =
          lit "\x7b\"type\":\"" ++ lit "meta\",\"data\":\x7b\"rows_read\":" := rfl
      show parseFrame ((((lit "\x7b\"type\":\"meta\",\"data\":\x7b\"rows_read\":" ++ natChars r) ++
        lit ",\"rows_written\":") ++ natChars w) ++ lit "\x7d\x7d") = _
      rw [hdec]
      simp only [List.append_assoc]
      unfold parseFrame
      simp only [stripPre_self, hcm, hrm]
      rw [parseNat_natChars (by rfl)]
      simp only [stripPre_self]
      rw [parseNat_natChars (by rfl)]
      simp
  | error msg =>
      have hdec : lit "\x7b\"type\":\"error\",\"error\":" =
          lit "\x7b\"type\":\"" ++ lit "error\",\"error\":" := rfl
      have hquote : lit "error\",\"error\":" ++ (encString msg ++ lit "\x7d") =
          lit "error\",\"error\":\"" ++ (encStringBody msg ++ '"' :: lit "\x7d") := by
        show lit "error\",\"error\":" ++ ('"' :: ((encStringBody msg ++ ['"']) ++ lit "\x7d")) = _
        rw [List.append_assoc, List.singleton_append]
        rfl
      show parseFrame ((lit "\x7b\"type\":\"error\",\"error\":" ++ encString msg) ++ lit "\x7d") = _
      rw [hdec]
      simp only [List.append_assoc]
      unfold parseFrame
      simp only [stripPre_self, hce, hre, hme]
      rw [hquote]
      simp only [stripPre_self]
      rw [parseStringBody_enc]
      simp [show lit "\x7d" = ['}'] from rfl]

/-! ## Stream consumer (client `exec` read loop)

The client reads chunks, appends them to a text buffer, aborts fatally when
the buffer would exceed `MAX_BUFFER_SIZE`, splits the buffer on `"\n"`
keeping the final (possibly incomplete) line, parses each complete line as
JSON (dropping lines that fail to parse), and applies the decoded messages
to the cursor; at end of stream the trimmed remainder is split and parsed
once more, and streaming is marked complete. -/

/-- JavaScript's `String.prototype.trim` whitespace test, restricted to the
ASCII whitespace characters (space, `\t`, `\n`, `\v`, `\f`, `\r`). -/
def isWsChar (c : Char) : Bool :=
  c = ' ' || c = '\t' || c = '\n' || c = Char.ofNat 11 || c = Char.ofNat 12 || c = '\x0d'

/-- `s.trim()`: drop whitespace from both ends. -/
def jsTrim (s : List Char) : List Char :=
  ((s.dropWhile isWsChar).reverse.dropWhile isWsChar).reverse

/-- `s.split("\n")` on character lists; always returns at least one piece
(`"".split("\n")` is `[""]`). -/
def splitNl : List Char → List (List Char)
  | [] => [[]]
  | c :: rest =>
    match splitNl rest with
    | [] => [[c]]
    | h :: t => if c = '\n' then [] :: h :: t else (c :: h) :: t

/-- `MAX_BUFFER_SIZE` of the client `exec`: 1 MB. -/
def MAX_BUFFER_SIZE : Nat := 1024 * 1024

/-- The cursor error recorded when the buffer bound is exceeded: the thrown
`"Buffer size exceeded maximum allowed size"` wrapped by the stream
processing catch. -/
def bufferOverflowError : JStr :=
  lit "Stream processing error: Buffer size exceeded maximum allowed size"

/-- State of the read loop: the text buffer, the cursor being populated,
and whether a thrown error has ended the loop. -/
structure ConsumerState where
  buffer : List Char
  cursor : ClientSqlCursor
  aborted : Bool
deriving DecidableEq, Repr

/-- Handling of one complete line in the read loop: blank lines are
skipped (`if (line.trim())`), lines that fail to parse are logged and
dropped, decoded messages are applied to the cursor. -/
def processLine (c : ClientSqlCursor) (line : List Char) : ClientSqlCursor :=
  if jsTrim line = [] then c
  else
    match parseFrame line with
    | some m => processStreamMessage c m
    | none => c

/-- One iteration of the read loop on a received chunk: append to the
buffer; if the buffer exceeds `MAX_BUFFER_SIZE`, throw — the catch feeds an
`error` message to the cursor, completes streaming, and the loop ends;
otherwise split on `"\n"`, keep the last piece as the new buffer and
process the complete lines. -/
def processChunk (st : ConsumerState) (chunk : List Char) : ConsumerState :=
  if st.aborted then st
  else
    let buf := st.buffer ++ chunk
    if buf.length > MAX_BUFFER_SIZE then
      { buffer := buf,
        cursor := completeStreaming
          (processStreamMessage st.cursor (.error bufferOverflowError)),
        aborted := true }
    else
      let parts := splitNl buf
      { buffer := parts.getLastD [],
        cursor := parts.dropLast.foldl processLine st.cursor,
        aborted := false }

/-- Processing of the final buffer lines at end of stream: one try block
around the whole loop, so the first line that fails to parse stops
processing of the remaining final lines. -/
def processFinalLines (c : ClientSqlCursor) : List (List Char) → ClientSqlCursor
  | [] => c
  | l :: ls =>
    if jsTrim l = [] then processFinalLines c ls
    else
      match parseFrame l with
      | some m => processFinalLines (processStreamMessage c m) ls
      | none => c

/-- The `done` branch of the read loop: if the loop was not ended by a
throw, parse the trimmed remainder (if non-blank) as final lines, then
mark streaming complete. -/
def finishStream (st : ConsumerState) : ConsumerState :=
  if st.aborted then st
  else
    { st with
      cursor := completeStreaming
        (if jsTrim st.buffer = [] then st.cursor
         else processFinalLines st.cursor (splitNl (jsTrim st.buffer))) }

/-- The whole streaming phase of `exec` applied to a cursor: fold the read
loop over the received chunks, then handle end of stream. -/
def consumeFrom (cursor : ClientSqlCursor) (chunks : List (List Char)) : ConsumerState :=
  finishStream
    (chunks.foldl processChunk { buffer := [], cursor := cursor, aborted := false })

/-- The newline-delimited encoding of a frame sequence as the producer
sends it (`JSON.stringify(frame) + "\n"` each); with `trailing := false`
the final newline is missing, so the last frame is only decoded at end of
stream. -/
def joinLines : List (List Char) → List Char
  | [] => []
  | [l] => l
  | l :: m :: ms => l ++ '\n' :: joinLines (m :: ms)

/-- The encoded byte stream for a frame sequence, with or without the
trailing newline after the last frame. -/
def encStream (frames : List StreamMessage) (trailing : Bool) : List Char :=
  if trailing then (frames.map (fun f => encFrame f ++ ['\n'])).flatten
  else joinLines (frames.map encFrame)

theorem splitNl_ne_nil (s : List Char) : splitNl s ≠ [] := by
  cases s with
  | nil => simp [splitNl]
  | cons c rest =>
      simp only [splitNl]
      rcases splitNl rest with _ | ⟨h, t⟩
      · simp
      · by_cases hc : c = '\n' <;> simp [hc]

/-- Splitting a concatenation: the complete lines of `s` stay complete, and
`t` extends the last (incomplete) line of `s`. -/
theorem splitNl_append (s t : List Char) :
    splitNl (s ++ t) =
      (splitNl s).dropLast ++ splitNl ((splitNl s).getLastD [] ++ t) := by
  induction s with
  | nil => simp [splitNl]
  | cons c s' ih =>
      rcases hr : splitNl s' with _ | ⟨h, t'⟩
      · exact absurd hr (splitNl_ne_nil s')
      · rw [List.cons_append]
        show (match splitNl (s' ++ t) with
          | [] => [[c]]
          | h :: t => if c = '\n' then [] :: h :: t else (c :: h) :: t) = _
        rw [ih, hr]
        cases t' with
        | nil =>
            rcases hq : splitNl (h ++ t) with _ | ⟨qh, qt⟩
            · exact absurd hq (splitNl_ne_nil _)
            · by_cases hc : c = '\n' <;>
                simp [splitNl, hr, hq, hc, List.getLastD_cons, List.getLastD_nil]
        | cons x xs =>
            by_cases hc : c = '\n' <;>
              simp [splitNl, hr, hc, List.getLastD_cons, List.dropLast_cons₂]

/-! ## Encoded frames are single, non-blank, parseable lines -/

theorem escapeChar_no_nl (c : Char) : ∀ x ∈ escapeChar c, x ≠ '\n' := by
  intro x hx
  unfold escapeChar at hx
  split_ifs at hx with h1 h2 h3 h4 h5 h6 h7 h8
  · simp only [List.mem_cons, List.mem_singleton, List.not_mem_nil, or_false] at hx
    rcases hx with h | h <;> subst h <;> decide
  · simp only [List.mem_cons, List.mem_singleton, List.not_mem_nil, or_false] at hx
    rcases hx with h | h <;> subst h <;> decide
  · simp only [List.mem_cons, List.mem_singleton, List.not_mem_nil, or_false] at hx
    rcases hx with h | h <;> subst h <;> decide
  · simp only [List.mem_cons, List.mem_singleton, List.not_mem_nil, or_false] at hx
    rcases hx with h | h <;> subst h <;> decide
  · simp only [List.mem_cons, List.mem_singleton, List.not_mem_nil, or_false] at hx
    rcases hx with h | h <;> subst h <;> decide
  · simp only [List.mem_cons, List.mem_singleton, List.not_mem_nil, or_false] at hx
    rcases hx with h | h <;> subst h <;> decide
  · simp only [List.mem_cons, List.mem_singleton, List.not_mem_nil, or_false] at hx
    rcases hx with h | h <;> subst h <;> decide
  · have hql : hexDigitChar (c.toNat / 16) ≠ '\n' := by
      have hq : c.toNat / 16 < 16 := by omega
      revert hq; generalize c.toNat / 16 = d; intro hq
      interval_cases d <;> decide
    have hrl : hexDigitChar (c.toNat % 16) ≠ '\n' := by
      have hr : c.toNat % 16 < 16 := by omega
      revert hr; generalize c.toNat % 16 = d; intro hr
      interval_cases d <;> decide
    simp only [List.mem_cons, List.mem_singleton, List.not_mem_nil, or_false] at hx
    rcases hx with h | h | h | h | h | h <;> subst h <;>
      first | decide | assumption
  · simp only [List.mem_singleton, List.not_mem_nil, List.mem_cons, or_false] at hx
    subst hx
    intro hceq
    rw [hceq] at h8
    exact h8 (by decide)

theorem encStringBody_no_nl (str : JStr) : ∀ x ∈ encStringBody str, x ≠ '\n' := by
  intro x hx
  unfold encStringBody at hx
  rcases List.mem_flatMap.mp hx with ⟨c, _, hc⟩
  exact escapeChar_no_nl c x hc

theorem encString_no_nl (str : JStr) : ∀ x ∈ encString str, x ≠ '\n' := by
  intro x hx
  have hx' : x ∈ '"' :: (encStringBody str ++ ['"']) := hx
  rcases List.mem_cons.mp hx' with h | h
  · subst h; decide
  · rcases List.mem_append.mp h with h2 | h2
    · exact encStringBody_no_nl str x h2
    · simp only [List.mem_singleton] at h2; subst h2; decide

theorem natChars_no_nl (n : Nat) : ∀ x ∈ natChars n, x ≠ '\n' := by
  intro x hx
  have hd := natCharsAux_digits (show n < n + 1 by omega) x hx
  simp only [isDigitCh, Bool.and_eq_true, decide_eq_true_eq] at hd
  intro hc
  rw [hc] at hd
  revert hd
  decide

theorem intChars_no_nl (i : Int) : ∀ x ∈ intChars i, x ≠ '\n' := by
  intro x hx
  unfold intChars at hx
  split at hx
  · rcases List.mem_cons.mp hx with h | h
    · subst h; decide
    · exact natChars_no_nl _ x h
  · exact natChars_no_nl _ x hx

theorem encValue_no_nl (v : JsonValue) : ∀ x ∈ encValue v, x ≠ '\n' := by
  intro x hx
  cases v with
  | str str => exact encString_no_nl str x hx
  | int i => exact intChars_no_nl i x hx
  | bool b =>
      cases b with
      | false => exact (by decide : ∀ x ∈ lit "false", x ≠ '\n') x hx
      | true => exact (by decide : ∀ x ∈ lit "true", x ≠ '\n') x hx
  | null => exact (by decide : ∀ x ∈ lit "null", x ≠ '\n') x hx

theorem encSep_no_nl {α : Type} (enc : α → List Char)
    (henc : ∀ a, ∀ x ∈ enc a, x ≠ '\n') (vs : List α) :
    ∀ x ∈ encSep enc vs, x ≠ '\n' := by
  induction vs with
  | nil => simp [encSep]
  | cons v vs' ih =>
      cases vs' with
      | nil => exact fun x hx => henc v x hx
      | cons w ws =>
          intro x hx
          have hx' : x ∈ enc v ++ ',' :: encSep enc (w :: ws) := hx
          rcases List.mem_append.mp hx' with h | h
          · exact henc v x h
          · rcases List.mem_cons.mp h with h2 | h2
            · subst h2; decide
            · exact ih x h2

theorem encFrame_no_nl (m : StreamMessage) : ∀ x ∈ encFrame m, x ≠ '\n' := by
  intro x hx
  cases m with
  | columns names =>
      rcases List.mem_append.mp hx with h | h
      · rcases List.mem_append.mp h with h2 | h2
        · exact (by decide : ∀ x ∈ lit "\x7b\"type\":\"columns\",\"data\":[", x ≠ '\n') x h2
        · exact encSep_no_nl encString (fun a => encString_no_nl a) names x h2
      · exact (by decide : ∀ x ∈ lit "]\x7d", x ≠ '\n') x h
  | row vals =>
      rcases List.mem_append.mp hx with h | h
      · rcases List.mem_append.mp h with h2 | h2
        · exact (by decide : ∀ x ∈ lit "\x7b\"type\":\"row\",\"data\":[", x ≠ '\n') x h2
        · exact encSep_no_nl encValue encValue_no_nl vals x h2
      · exact (by decide : ∀ x ∈ lit "]\x7d", x ≠ '\n') x h
  | meta r w =>
      rcases List.mem_append.mp hx with h | h
      · rcases List.mem_append.mp h with h2 | h2
        · rcases List.mem_append.mp h2 with h3 | h3
          · rcases List.mem_append.mp h3 with h4 | h4
            · exact (by decide :
                ∀ x ∈ lit "\x7b\"type\":\"meta\",\"data\":\x7b\"rows_read\":", x ≠ '\n') x h4
            · exact natChars_no_nl r x h4
          · exact (by decide : ∀ x ∈ lit ",\"rows_written\":", x ≠ '\n') x h3
        · exact natChars_no_nl w x h2
      · exact (by decide : ∀ x ∈ lit "\x7d\x7d", x ≠ '\n') x h
  | error msg =>
      rcases List.mem_append.mp hx with h | h
      · rcases List.mem_append.mp h with h2 | h2
        · exact (by decide : ∀ x ∈ lit "\x7b\"type\":\"error\",\"error\":", x ≠ '\n') x h2
        · exact encString_no_nl msg x h2
      · exact (by decide : ∀ x ∈ lit "\x7d", x ≠ '\n') x h

theorem encFrame_head (m : StreamMessage) : (encFrame m).head? = some '{' := by
  cases m <;> rfl

theorem encFrame_getLast (m : StreamMessage) : (encFrame m).getLast? = some '}' := by
  cases m with
  | columns names =>
      show ((lit "\x7b\"type\":\"columns\",\"data\":[" ++ encSep encString names) ++
        lit "]\x7d").getLast? = some '}'
      rw [List.getLast?_append]
      rfl
  | row vals =>
      show ((lit "\x7b\"type\":\"row\",\"data\":[" ++ encSep encValue vals) ++
        lit "]\x7d").getLast? = some '}'
      rw [List.getLast?_append]
      rfl
  | meta r w =>
      show ((((lit "\x7b\"type\":\"meta\",\"data\":\x7b\"rows_read\":" ++ natChars r) ++
        lit ",\"rows_written\":") ++ natChars w) ++ lit "\x7d\x7d").getLast? = some '}'
      rw [List.getLast?_append]
      rfl
  | error msg =>
      show ((lit "\x7b\"type\":\"error\",\"error\":" ++ encString msg) ++
        lit "\x7d").getLast? = some '}'
      rw [List.getLast?_append]
      rfl

theorem jsTrim_eq_self_of_ends {s : List Char} (h1 : s.head? = some '{')
    (h2 : s.getLast? = some '}') : jsTrim s = s := by
  unfold jsTrim
  have hd : s.dropWhile isWsChar = s := by
    cases s with
    | nil => simp at h1
    | cons a tail =>
        simp only [List.head?_cons, Option.some.injEq] at h1
        subst h1
        rw [List.dropWhile_cons]
        simp [isWsChar]
  rw [hd]
  have hrev : s.reverse.dropWhile isWsChar = s.reverse := by
    rcases hx : s.reverse with _ | ⟨b, rb⟩
    · simp
    · have hh : s.reverse.head? = some '}' := by rw [List.head?_reverse]; exact h2
      rw [hx] at hh
      simp only [List.head?_cons, Option.some.injEq] at hh
      subst hh
      rw [List.dropWhile_cons]
      simp [isWsChar]
  rw [hrev, List.reverse_reverse]

theorem jsTrim_encFrame (m : StreamMessage) : jsTrim (encFrame m) = encFrame m :=
  jsTrim_eq_self_of_ends (encFrame_head m) (encFrame_getLast m)

theorem encFrame_ne_nil (m : StreamMessage) : encFrame m ≠ [] := by
  intro h
  have := encFrame_head m
  rw [h] at this
  simp at this

/-- A complete line holding an encoded frame is processed by applying
exactly that frame to the cursor. -/
theorem processLine_encFrame (c : ClientSqlCursor) (m : StreamMessage) :
    processLine c (encFrame m) = processStreamMessage c m := by
  unfold processLine
  rw [jsTrim_encFrame, if_neg (encFrame_ne_nil m), parseFrame_encFrame]

/-! ## The incremental read loop decodes exactly the encoded frames -/

theorem lastLine_length_le (s : List Char) :
    ((splitNl s).getLastD []).length ≤ s.length := by
  induction s with
  | nil => simp [splitNl]
  | cons c s' ih =>
      rcases hr : splitNl s' with _ | ⟨h, t⟩
      · exact absurd hr (splitNl_ne_nil s')
      · rw [hr] at ih
        simp only [splitNl, hr]
        by_cases hc : c = '\n'
        · rw [if_pos hc, List.getLastD_cons]
          simp only [List.length_cons]
          omega
        · rw [if_neg hc]
          cases t with
          | nil =>
              simp only [List.getLastD_cons, List.getLastD_nil, List.length_cons] at ih ⊢
              omega
          | cons x xs =>
              simp only [List.getLastD_cons, List.length_cons] at ih ⊢
              omega

theorem getLastD_append_of_ne_nil {A B : List (List Char)} (h : B ≠ []) :
    (A ++ B).getLastD [] = B.getLastD [] := by
  rw [List.getLastD_eq_getLast?, List.getLastD_eq_getLast?, List.getLast?_append]
  rcases hx : B.getLast? with _ | b
  · exact absurd (List.getLast?_eq_none_iff.mp hx) h
  · rfl

/-- Folding the read loop over a chunk list: the state stays unaborted, the
buffer holds the final (incomplete) line of everything received so far, and
the cursor has processed exactly the complete lines, in order.  The
hypothesis keeps every intermediate buffer within `MAX_BUFFER_SIZE`. -/
theorem consume_foldl (chunks : List (List Char)) (S : List Char)
    (c0 : ClientSqlCursor)
    (htotal : (S ++ chunks.flatten).length ≤ MAX_BUFFER_SIZE) :
    chunks.foldl processChunk
      { buffer := (splitNl S).getLastD [],
        cursor := (splitNl S).dropLast.foldl processLine c0,
        aborted := false } =
      { buffer := (splitNl (S ++ chunks.flatten)).getLastD [],
        cursor := (splitNl (S ++ chunks.flatten)).dropLast.foldl processLine c0,
        aborted := false } := by
  induction chunks generalizing S with
  | nil => simp
  | cons ch rest ih =>
      have hlen : ((splitNl S).getLastD [] ++ ch).length ≤ MAX_BUFFER_SIZE := by
        have h1 := lastLine_length_le S
        simp only [List.flatten_cons, List.length_append] at htotal ⊢
        omega
      have hbuf : (splitNl ((splitNl S).getLastD [] ++ ch)).getLastD [] =
          (splitNl (S ++ ch)).getLastD [] := by
        rw [splitNl_append S ch, getLastD_append_of_ne_nil (splitNl_ne_nil _)]
      have hcur : (splitNl ((splitNl S).getLastD [] ++ ch)).dropLast.foldl processLine
            ((splitNl S).dropLast.foldl processLine c0) =
          (splitNl (S ++ ch)).dropLast.foldl processLine c0 := by
        rw [splitNl_append S ch,
          List.dropLast_append_of_ne_nil _ (splitNl_ne_nil ((splitNl S).getLastD [] ++ ch)),
          List.foldl_append]
      have hstep : processChunk
          { buffer := (splitNl S).getLastD [],
            cursor := (splitNl S).dropLast.foldl processLine c0,
            aborted := false } ch =
          { buffer := (splitNl (S ++ ch)).getLastD [],
            cursor := (splitNl (S ++ ch)).dropLast.foldl processLine c0,
            aborted := false } := by
        simp only [processChunk]
        rw [if_neg (by simp)]
        rw [if_neg (by omega :
          ¬((splitNl S).getLastD [] ++ ch).length > MAX_BUFFER_SIZE)]
        rw [hbuf, hcur]
      rw [List.foldl_cons, hstep]
      have htotal' : ((S ++ ch) ++ rest.flatten).length ≤ MAX_BUFFER_SIZE := by
        simp only [List.flatten_cons, List.length_append] at htotal ⊢
        omega
      rw [ih (S ++ ch) htotal']
      simp [List.append_assoc]

theorem splitNl_no_nl {l : List Char} (h : ∀ c ∈ l, c ≠ '\n') :
    splitNl l = [l] := by
  induction l with
  | nil => rfl
  | cons c rest ih =>
      simp only [splitNl, ih (fun x hx => h x (List.mem_cons_of_mem c hx))]
      rw [if_neg (h c (List.mem_cons_self c rest))]

theorem splitNl_line (l t : List Char) (h : ∀ c ∈ l, c ≠ '\n') :
    splitNl (l ++ '\n' :: t) = l :: splitNl t := by
  induction l with
  | nil =>
      rcases hq : splitNl t with _ | ⟨qh, qt⟩
      · exact absurd hq (splitNl_ne_nil t)
      · simp [splitNl, hq]
  | cons c rest ih =>
      rw [List.cons_append]
      simp only [splitNl, ih (fun x hx => h x (List.mem_cons_of_mem c hx))]
      rw [if_neg (h c (List.mem_cons_self c rest))]

theorem splitNl_joined_nl (ls : List (List Char))
    (h : ∀ l ∈ ls, ∀ c ∈ l, c ≠ '\n') :
    splitNl ((ls.map (fun l => l ++ ['\n'])).flatten) = ls ++ [[]] := by
  induction ls with
  | nil => rfl
  | cons l rest ih =>
      simp only [List.map_cons, List.flatten_cons, List.append_assoc,
        List.singleton_append]
      rw [splitNl_line l _ (h l (List.mem_cons_self l rest))]
      rw [ih (fun x hx => h x (List.mem_cons_of_mem l hx))]
      rfl

theorem splitNl_joinLines (ls : List (List Char))
    (h : ∀ l ∈ ls, ∀ c ∈ l, c ≠ '\n') (hne : ls ≠ []) :
    splitNl (joinLines ls) = ls := by
  induction ls with
  | nil => exact absurd rfl hne
  | cons l rest ih =>
      cases rest with
      | nil => exact splitNl_no_nl (h l (List.mem_cons_self l []))
      | cons m ms =>
          show splitNl (l ++ '\n' :: joinLines (m :: ms)) = l :: m :: ms
          rw [splitNl_line l _ (h l (List.mem_cons_self l (m :: ms)))]
          rw [ih (fun x hx => h x (List.mem_cons_of_mem l hx)) (by simp)]

theorem getLastD_default_irrel {α : Type} {l : List α} (h : l ≠ []) (a b : α) :
    l.getLastD a = l.getLastD b := by
  rw [List.getLastD_eq_getLast?, List.getLastD_eq_getLast?]
  rcases hx : l.getLast? with _ | x
  · exact absurd (List.getLast?_eq_none_iff.mp hx) h
  · rfl

theorem foldl_processLine_map (frames : List StreamMessage) (c : ClientSqlCursor) :
    (frames.map encFrame).foldl processLine c = frames.foldl processStreamMessage c := by
  induction frames generalizing c with
  | nil => rfl
  | cons f fs ih => simp [processLine_encFrame, ih]

/-- Chunking robustness of the consumer: however the encoded stream of a
frame sequence is split into chunks — with or without a trailing newline
after the last frame — as long as the whole stream fits in the buffer
bound, the consumer applies exactly the encoded frames, in order, and then
marks streaming complete at end of stream. -/
theorem consumeFrom_encStream (c0 : ClientSqlCursor) (frames : List StreamMessage)
    (trailing : Bool) (chunks : List (List Char))
    (hchunks : chunks.flatten = encStream frames trailing)
    (hsize : (encStream frames trailing).length ≤ MAX_BUFFER_SIZE) :
    (consumeFrom c0 chunks).cursor =
      completeStreaming (frames.foldl processStreamMessage c0) := by
  unfold consumeFrom
  have hinit : ({ buffer := [], cursor := c0, aborted := false } : ConsumerState) =
      { buffer := (splitNl ([] : List Char)).getLastD [],
        cursor := (splitNl ([] : List Char)).dropLast.foldl processLine c0,
        aborted := false } := by
    simp [splitNl]
  rw [hinit,
    consume_foldl chunks [] c0 (by rw [List.nil_append, hchunks]; exact hsize),
    List.nil_append, hchunks]
  cases trailing with
  | true =>
      have hmm : (frames.map encFrame).map (fun l => l ++ ['\n']) =
          frames.map (fun f => encFrame f ++ ['\n']) := by
        rw [List.map_map]
        rfl
      have hsp : splitNl (encStream frames true) = frames.map encFrame ++ [[]] := by
        show splitNl ((frames.map (fun f => encFrame f ++ ['\n'])).flatten) = _
        rw [← hmm]
        rw [splitNl_joined_nl]
        intro l hl
        rcases List.mem_map.mp hl with ⟨m, _, hm⟩
        subst hm
        exact encFrame_no_nl m
      rw [hsp, List.getLastD_concat, List.dropLast_concat]
      simp [finishStream, jsTrim, foldl_processLine_map]
  | false =>
      cases frames with
      | nil => simp [encStream, joinLines, splitNl, finishStream, jsTrim]
      | cons f fs =>
          have hnn : ∀ l ∈ (f :: fs).map encFrame, ∀ c ∈ l, c ≠ '\n' := by
            intro l hl
            rcases List.mem_map.mp hl with ⟨m, _, hm⟩
            subst hm
            exact encFrame_no_nl m
          have hsp : splitNl (encStream (f :: fs) false) = (f :: fs).map encFrame := by
            show splitNl (joinLines ((f :: fs).map encFrame)) = _
            exact splitNl_joinLines _ hnn (by simp)
          rw [hsp]
          have hfne : (f :: fs) ≠ [] := by simp
          have hml : ((f :: fs).map encFrame).getLastD [] =
              encFrame ((f :: fs).getLastD (StreamMessage.meta 0 0)) := by
            rw [getLastD_default_irrel (by simp) ([] : List Char)
              (encFrame (StreamMessage.meta 0 0))]
            exact List.getLastD_map encFrame (f :: fs) (StreamMessage.meta 0 0)
          have hmd : ((f :: fs).map encFrame).dropLast = (f :: fs).dropLast.map encFrame := by
            rw [List.map_dropLast]
          rw [hml, hmd]
          have hpf : ∀ cur, processFinalLines cur
              (splitNl (jsTrim (encFrame ((f :: fs).getLastD (StreamMessage.meta 0 0))))) =
              processStreamMessage cur ((f :: fs).getLastD (StreamMessage.meta 0 0)) := by
            intro cur
            rw [jsTrim_encFrame, splitNl_no_nl (encFrame_no_nl _)]
            simp only [processFinalLines, jsTrim_encFrame, parseFrame_encFrame]
            rw [if_neg (encFrame_ne_nil _)]
          have hlast : (f :: fs).dropLast ++ [(f :: fs).getLastD (StreamMessage.meta 0 0)] =
              f :: fs := by
            have hg : (f :: fs).getLastD (StreamMessage.meta 0 0) = (f :: fs).getLast hfne := by
              rw [List.getLastD_eq_getLast?, List.getLast?_eq_getLast _ hfne]
              rfl
            rw [hg]
            exact List.dropLast_concat_getLast hfne
          simp only [finishStream]
          rw [if_neg (by simp)]
          simp only []
          rw [if_neg (by rw [jsTrim_encFrame]; exact encFrame_ne_nil _)]
          rw [hpf, foldl_processLine_map]
          congr 1
          conv_rhs => rw [← hlast]
          rw [List.foldl_append]
          rfl

/-! ## Stream producer (src/src/DORM.ts, `pull`)

The Durable Object wraps `this.sql.exec(...)` in a `ReadableStream` whose
`pull` callback drives the underlying cursor one step per call.  The
underlying SQL cursor is embedded as its column names, its rows in
iteration order, its final counters, and an optional index at which the
row iterator throws (modelling a storage exception while fetching a
row). -/

structure SqlExecResult where
  columnNames : List JStr
  rows : List (List JsonValue)
  rowsRead : Nat
  rowsWritten : Nat
  failAt : Option Nat
  failMsg : JStr
deriving DecidableEq, Repr

/-- The state `pull` keeps on the stream between calls:
`columnsSent`, whether `rowIterator` has been created, the iterator's
position, `cursorComplete`, `metaSent`, and whether the controller has
been closed. -/
structure ProducerState where
  columnsSent : Bool
  rowIteratorStarted : Bool
  nextRow : Nat
  cursorComplete : Bool
  metaSent : Bool
  closed : Bool
deriving DecidableEq, Repr

/-- The stream state installed by `start`. -/
def ProducerState.start : ProducerState :=
  { columnsSent := false, rowIteratorStarted := false, nextRow := 0,
    cursorComplete := false, metaSent := false, closed := false }

/-- `rowIterator.next()`: throws at the configured failure index,
otherwise yields the next row or reports exhaustion. -/
def iterNext (res : SqlExecResult) (i : Nat) :
    Except JStr (Option (List JsonValue)) :=
  if res.failAt = some i then .error res.failMsg
  else
    match res.rows.get? i with
    | some row => .ok (some row)
    | none => .ok none

/-- One `pull` call: the list of frames enqueued during the call (each is
sent on the wire as `encFrame · ++ "\n"`), and the state afterwards.
Step 1 sends the `columns` frame and returns; step 2 creates the row
iterator; step 3 sends one `row` frame and returns, or marks the cursor
complete on exhaustion and falls through; step 4 sends the `meta` frame
and closes.  Any exception is caught by enqueueing an `error` frame and
closing. -/
def pull (res : SqlExecResult) (s : ProducerState) :
    List StreamMessage × ProducerState :=
  if !s.columnsSent then
    ([.columns res.columnNames], { s with columnsSent := true })
  else
    let s := if !s.rowIteratorStarted then { s with rowIteratorStarted := true } else s
    if !s.cursorComplete then
      match iterNext res s.nextRow with
      | .error msg => ([.error msg], { s with closed := true })
      | .ok (some row) => ([.row row], { s with nextRow := s.nextRow + 1 })
      | .ok none =>
        let s := { s with cursorComplete := true }
        if !s.metaSent then
          ([.meta res.rowsRead res.rowsWritten], { s with metaSent := true, closed := true })
        else ([], s)
    else if !s.metaSent then
      ([.meta res.rowsRead res.rowsWritten], { s with metaSent := true, closed := true })
    else ([], s)

/-- Producer state after `n` calls to `pull`. -/
def pullN (res : SqlExecResult) : Nat → ProducerState
  | 0 => ProducerState.start
  | n + 1 => (pull res (pullN res n)).2

/-- States `pull` can actually reach while the stream is open: the columns
frame not yet sent and nothing else done, or columns sent, rows complete
and meta sent only together with a close. -/
def producerInv (s : ProducerState) : Prop :=
  s.closed = false →
    (s.cursorComplete = false ∧ s.metaSent = false ∧
      (s.columnsSent = false → s.rowIteratorStarted = false ∧ s.nextRow = 0))

theorem producerInv_start : producerInv ProducerState.start := by
  intro _
  simp [ProducerState.start]

theorem producerInv_step (res : SqlExecResult) (s : ProducerState)
    (h : producerInv s) : producerInv (pull res s).2 := by
  obtain ⟨cs, it, nr, cc, ms, cl⟩ := s
  unfold producerInv at h ⊢
  cases cs <;> cases it <;> cases cc <;> cases ms <;> cases cl <;>
    simp_all [pull] <;> (try split) <;> simp_all

theorem producerInv_pullN (res : SqlExecResult) (n : Nat) :
    producerInv (pullN res n) := by
  induction n with
  | zero => exact producerInv_start
  | succ n ih => exact producerInv_step res (pullN res n) ih

/-- While the stream is open, every `pull` enqueues exactly one frame. -/
theorem pull_emits_one_of_inv (res : SqlExecResult) (s : ProducerState)
    (hinv : producerInv s) (hopen : s.closed = false) :
    (pull res s).1.length = 1 := by
  obtain ⟨cs, it, nr, cc, ms, cl⟩ := s
  rcases hinv hopen with ⟨h1, h2, _⟩
  simp only at h1 h2
  subst h1
  subst h2
  cases cs <;> cases it <;>
    simp [pull] <;> (try split) <;> simp

/-! ## Transport wrapper: the retry loop of `exec`
(src/unnamed/part_006, lines 321-453)

`exec` creates one cursor, then tries up to `MAX_RETRIES + 1` times to
obtain a response; a rejected fetch, the timeout, or a non-ok/body-less
response throws and counts as a failed attempt.  A successful attempt
hands the response body to the streaming consumer, which populates that
same cursor.  When the attempts are exhausted, the same cursor is fed an
`error` message naming the final failure and completed.  An attempt is
embedded as its outcome: the chunk list of the obtained body, or the
thrown error's message. -/

def MAX_RETRIES : Nat := 1

/-- The error recorded when retries are exhausted:
`"Failed after ${MAX_RETRIES} retries: ${lastError?.message}"`. -/
def failedAfterMsg (lastMsg : JStr) : JStr :=
  lit "Failed after " ++ natChars MAX_RETRIES ++ lit " retries: " ++ lastMsg

/-- The `while (retries <= MAX_RETRIES)` loop of `exec`, returning the
final state of the one cursor created at entry.  On success the cursor is
populated by the streaming consumer (`consumeFrom`); on a failed attempt
the retry counter is incremented and, once it exceeds `MAX_RETRIES`, the
cursor is errored and completed. -/
def execLoopF (attempt : Nat → Except JStr (List (List Char))) :
    Nat → Nat → ClientSqlCursor → ClientSqlCursor
  | 0, _, cursor => cursor
  | fuel + 1, retries, cursor =>
    if retries ≤ MAX_RETRIES then
      match attempt retries with
      | .ok chunks => (consumeFrom cursor chunks).cursor
      | .error msg =>
        if retries + 1 ≤ MAX_RETRIES then execLoopF attempt fuel (retries + 1) cursor
        else completeStreaming
          (processStreamMessage cursor (.error (failedAfterMsg msg)))
    else cursor

/-- The retry loop entered with `retries = 0`; `MAX_RETRIES + 1` loop
iterations are always enough because `retries` increases by one per
failed iteration. -/
def execLoop (attempt : Nat → Except JStr (List (List Char)))
    (retries : Nat) (cursor : ClientSqlCursor) : ClientSqlCursor :=
  execLoopF attempt (MAX_RETRIES + 1 - retries) retries cursor

/-- `exec`: one fresh cursor, retried population. -/
def execModel (attempt : Nat → Except JStr (List (List Char))) : ClientSqlCursor :=
  execLoop attempt 0 ClientSqlCursor.init

/-! ## Batch ("transaction") executor (src/mod.ts, middleware `/query/raw`)

The middleware's transaction path executes the statements in order,
accumulating one result record per statement.  `exec` and `cursor.raw()`
come from the external `remote-sql-cursor` package (not part of this
repository's `src/`); a statement execution is therefore embedded as a
fallible call.  Modelled from the spec: a failing statement is the only
failure signal the batch loop can observe, and it surfaces as a thrown
error (spec §4.6: "If any statement fails, execution stops at that
statement"). -/

structure Query where
  sql : JStr
  params : List JsonValue
deriving DecidableEq, Repr

structure StmtResult where
  columns : List JStr
  rows : List (List JsonValue)
  rows_read : Nat
  rows_written : Nat
deriving DecidableEq, Repr

/-- The HTTP response of the transaction path: the
`{result, transaction: {success}}` JSON body, or the 500 `{error}` body
produced by the outer catch. -/
inductive BatchResponse where
  | results (results : List StmtResult) (success : Bool)
  | errorResponse (msg : JStr)
deriving DecidableEq, Repr

/-- The `for (const txQuery of data.transaction)` loop: runs statements in
order until one throws; returns the queries actually executed and either
the accumulated results or the thrown error. -/
def runTransactionLoop (runStmt : Query → Except JStr StmtResult) :
    List Query → List Query × Except JStr (List StmtResult)
  | [] => ([], .ok [])
  | q :: rest =>
    match runStmt q with
    | .error e => ([q], .error e)
    | .ok r =>
      let (executed, res) := runTransactionLoop runStmt rest
      (q :: executed,
        match res with
        | .ok rs => .ok (r :: rs)
        | .error e => .error e)

/-- The transaction endpoint: on success of every statement it returns
`{result: results, transaction: {success}}` with `success` still `true`;
when a statement throws, the inner catch sets `success := false` and
**rethrows**, so the outer catch returns the 500 `{error}` response and
the `success:false` body is never sent. -/
def transactionEndpoint (runStmt : Query → Except JStr StmtResult)
    (qs : List Query) : BatchResponse :=
  match (runTransactionLoop runStmt qs).2 with
  | .ok rs => .results rs true
  | .error e => .errorResponse e

/-! ## Mirrored execution (src/mod.ts, `execWithMirroring`)

The primary query runs on the main stub and its cursor is what the caller
receives.  If a mirror stub and an execution context are configured, the
same query is replayed on the mirror inside `mirrorPromise`, whose body
catches (and only logs) every error; the task is handed to
`ctx.waitUntil` and its result is never observed by the caller. -/

/-- The body of `mirrorPromise`: drain the mirror cursor, catching any
error (`console.error` only). -/
def mirrorTask (mirrorExec : Query → Except JStr Unit) (q : Query) :
    Except JStr Unit :=
  match mirrorExec q with
  | .ok () => .ok ()
  | .error _ => .ok ()

/-- `execWithMirroring`: the cursor handed to the caller, and the detached
background task's outcome (`none` when no mirror is configured). -/
def execWithMirroring (primaryExec : Query → ClientSqlCursor)
    (mirrorExec : Option (Query → Except JStr Unit)) (q : Query) :
    ClientSqlCursor × Option (Except JStr Unit) :=
  let cursor := primaryExec q
  let task :=
    match mirrorExec with
    | none => none
    | some m => some (mirrorTask m q)
  (cursor, task)

/-! ## The bulk accessor `toArray` and completion gating
(src/unnamed/part_006, lines 68-73 and 151-157)

`toArray` awaits `waitForStreamingComplete()` — resolved immediately when
`_streamingComplete` is already set, and otherwise by `_completeStreaming`
at the first completing event — then materializes `results()`.  Its timing
is embedded over an event schedule: the call at time `t` resolves at the
first `t' ≥ t` at which the cursor is complete, with the records built
from the cursor state at that time. -/

/-- JS object assignment `result[key] = value` on an association-list
record (later assignments overwrite). -/
def setKey (rec : List (JStr × Option JsonValue)) (k : JStr)
    (v : Option JsonValue) : List (JStr × Option JsonValue) :=
  match rec with
  | [] => [(k, v)]
  | (k2, v2) :: rest => if k2 = k then (k, v) :: rest else (k2, v2) :: setKey rest k v

/-- `results()` for one row: `result[columnNames[i]] = row[i]` for each
column index (an out-of-range row index stores `undefined`, embedded as
`none`). -/
def rowToRecord (cols : List JStr) (row : List JsonValue) :
    List (JStr × Option JsonValue) :=
  (List.range cols.length).foldl
    (fun rec i => setKey rec (cols.getD i []) (row.get? i)) []

/-- `Array.from(this.results())`. -/
def resultsList (c : ClientSqlCursor) : List (List (JStr × Option JsonValue)) :=
  c.rows.map (rowToRecord c.columnNames)

/-- Resolution time of `waitForStreamingComplete` for a call at time `t`:
the first `t' ≥ t` (within the schedule) at which the cursor is complete;
`none` if streaming never completes. -/
def waitResolveTimeF (evs : List StreamEvent) : Nat → Nat → Option Nat
  | 0, t => if (stateAt evs t).streamingComplete then some t else none
  | fuel + 1, t =>
    if (stateAt evs t).streamingComplete then some t
    else if t < evs.length then waitResolveTimeF evs fuel (t + 1)
    else none

/-- Resolution search starting at `t`; `evs.length - t` steps of fuel are
always enough because the search stops at the schedule's end. -/
def waitResolveTime (evs : List StreamEvent) (t : Nat) : Option Nat :=
  waitResolveTimeF evs (evs.length - t) t

/-- `toArray` called at time `t`: await completion, then materialize the
rows accumulated at the resolution time. -/
def toArrayAt (evs : List StreamEvent) (t : Nat) :
    Option (Nat × List (List (JStr × Option JsonValue))) :=
  (waitResolveTime evs t).map fun tr => (tr, resultsList (stateAt evs tr))

/-! ## Producer run characterization -/

/-- After the columns pull and `k ≤ rows.length` row pulls, the producer
is open, the iterator stands at row `k`, and neither completion nor meta
has happened. -/
theorem pullN_rows (res : SqlExecResult) (hfail : res.failAt = none)
    (k : Nat) (hk : k ≤ res.rows.length) :
    pullN res (1 + k) =
      { columnsSent := true, rowIteratorStarted := decide (0 < k), nextRow := k,
        cursorComplete := false, metaSent := false, closed := false } := by
  induction k with
  | zero => rfl
  | succ k ih =>
      have hk2 : k ≤ res.rows.length := by omega
      have hlt : k < res.rows.length := by omega
      have hit : iterNext res k = .ok (some (res.rows.get ⟨k, hlt⟩)) := by
        simp [iterNext, hfail, List.get?_eq_getElem?, List.getElem?_eq_getElem hlt]
      show (pull res (pullN res (1 + k))).2 = _
      rw [ih hk2]
      cases hb : decide (0 < k)
      case false =>
        simp [pull, hit, hb]
      case true =>
        simp [pull, hit, hb]

/-! ## Claim C1 -/

/-- C1: For every pull signal delivered while the stream is still open,
the producer enqueues exactly one frame — never more — before yielding
control, so emitted frames strictly alternate with consumer pull requests
for the whole lifetime of one stream. -/
theorem c1_pull_emits_exactly_one_frame (res : SqlExecResult) (n : Nat)
    (hopen : (pullN res n).closed = false) :
    (pull res (pullN res n)).1.length = 1 :=
  pull_emits_one_of_inv res (pullN res n) (producerInv_pullN res n) hopen

/-- C1 witness: a concrete one-row result, observed at the second pull. -/
theorem c1_witness :
    (pull { columnNames := [lit "id"], rows := [[JsonValue.int 1]], rowsRead := 1,
            rowsWritten := 0, failAt := none, failMsg := [] }
      (pullN { columnNames := [lit "id"], rows := [[JsonValue.int 1]], rowsRead := 1,
               rowsWritten := 0, failAt := none, failMsg := [] } 1)).1.length = 1 :=
  c1_pull_emits_exactly_one_frame _ 1 (by decide)

/-! ## Claim C7 -/

/-- C7 counterexample input: a result with one column and no rows, so the
iterator reports exhaustion on the second pull. -/
def c7res : SqlExecResult :=
  { columnNames := [lit "a"], rows := [], rowsRead := 0, rowsWritten := 0,
    failAt := none, failMsg := [] }

/-- C7 counterexample: on the pull during which the iterator reports
exhaustion, the producer emits the Meta frame on that same pull — the code
falls through from marking `cursorComplete` straight into step 4 — so the
claim that no frame is emitted on that pull (and that Meta waits for a
later pull) is false. -/
theorem c7_counterexample :
    (pull c7res (pullN c7res 1)).1 = [StreamMessage.meta 0 0] ∧
    (pull c7res (pullN c7res 1)).1 ≠ [] := by
  constructor
  · rfl
  · decide

/-- C7 amended: on the pull during which the iterator reports exhaustion
(pull `rows.length + 1` of a failure-free stream, counting the columns
pull), the producer marks the cursor complete and emits the Meta frame on
that same pull, closing the stream; no later pull carries the Meta frame. -/
theorem c7_exhaustion_pull_amended (res : SqlExecResult)
    (hfail : res.failAt = none) :
    (pullN res (1 + res.rows.length)).closed = false ∧
    (pullN res (1 + res.rows.length)).cursorComplete = false ∧
    (pull res (pullN res (1 + res.rows.length))).1 =
      [StreamMessage.meta res.rowsRead res.rowsWritten] ∧
    (pull res (pullN res (1 + res.rows.length))).2.cursorComplete = true ∧
    (pull res (pullN res (1 + res.rows.length))).2.metaSent = true ∧
    (pull res (pullN res (1 + res.rows.length))).2.closed = true := by
  have hs := pullN_rows res hfail res.rows.length (le_refl _)
  have hie : iterNext res res.rows.length = .ok none := by
    simp [iterNext, hfail, List.get?_eq_getElem?]
  rw [hs]
  cases hb : decide (0 < res.rows.length) <;>
    simp [pull, hie, hb]

/-- C7 witness for the amended claim: the two-pull run on a no-row
result. -/
theorem c7_amended_witness :
    (pull c7res (pullN c7res (1 + c7res.rows.length))).1 =
      [StreamMessage.meta 0 0] :=
  (c7_exhaustion_pull_amended c7res rfl).2.2.1

/-! ## Claim C6 -/

/-- C6 counterexample: after a `meta` frame has completed the cursor,
processing a further `row` frame still mutates `rows` — the cursor is not
immutable once `complete` is true. -/
theorem c6_immutability_counterexample :
    (processStreamMessage ClientSqlCursor.init (.meta 0 0)).streamingComplete = true ∧
    (processStreamMessage (processStreamMessage ClientSqlCursor.init (.meta 0 0))
        (.row [JsonValue.int 1])).rows ≠
      (processStreamMessage ClientSqlCursor.init (.meta 0 0)).rows := by
  decide

/-- C6 amended: the `complete` transition is one-way — once
`streamingComplete` is true it stays true under any further frame (and any
further frame sequence) — but the other cursor fields are not frozen: a
frame processed after completion still updates them
(`_processStreamMessage` has no guard on `_streamingComplete`). -/
theorem c6_complete_monotone (c : ClientSqlCursor)
    (h : c.streamingComplete = true) (ms : List StreamMessage) :
    ((ms.foldl processStreamMessage c).streamingComplete) = true := by
  induction ms generalizing c with
  | nil => exact h
  | cons m rest ih =>
      refine ih (processStreamMessage c m) ?_
      cases m <;> simp_all [processStreamMessage, completeStreaming]

/-- C6 witness: completion survives a subsequent row frame on a concrete
cursor. -/
theorem c6_witness :
    (([StreamMessage.row [JsonValue.int 1]].foldl processStreamMessage
      (processStreamMessage ClientSqlCursor.init (.meta 0 0))).streamingComplete) = true :=
  c6_complete_monotone _ (by decide) _

/-! ## Claim C10 -/

/-- The `row` payload of a message, if any. -/
def rowPayload : StreamMessage → Option (List JsonValue)
  | .row d => some d
  | _ => none

theorem eof_run_no_meta (ms : List StreamMessage) (c : ClientSqlCursor)
    (hall : ∀ m ∈ ms, completesMessage m = false) :
    ((ms.map StreamEvent.msg ++ [StreamEvent.eof]).foldl applyEvent
      c).streamingComplete = true ∧
    ((ms.map StreamEvent.msg ++ [StreamEvent.eof]).foldl applyEvent
      c).error = c.error ∧
    ((ms.map StreamEvent.msg ++ [StreamEvent.eof]).foldl applyEvent
      c).initialized = c.initialized ∧
    ((ms.map StreamEvent.msg ++ [StreamEvent.eof]).foldl applyEvent
      c).rowsRead = c.rowsRead ∧
    ((ms.map StreamEvent.msg ++ [StreamEvent.eof]).foldl applyEvent
      c).rowsWritten = c.rowsWritten ∧
    ((ms.map StreamEvent.msg ++ [StreamEvent.eof]).foldl applyEvent
      c).rows = c.rows ++ ms.filterMap rowPayload := by
  induction ms generalizing c with
  | nil => simp [applyEvent, completeStreaming]
  | cons m rest ih =>
      have hm := hall m (List.mem_cons_self m rest)
      have hrest : ∀ x ∈ rest, completesMessage x = false :=
        fun x hx => hall x (List.mem_cons_of_mem m hx)
      simp only [List.map_cons, List.cons_append, List.foldl_cons]
      have hrec := ih (applyEvent c (.msg m)) hrest
      cases m with
      | columns d =>
          simpa [applyEvent, processStreamMessage, rowPayload] using hrec
      | row d =>
          simp only [applyEvent, processStreamMessage] at hrec
          simpa [rowPayload, List.append_assoc] using hrec
      | meta r w => simp [completesMessage] at hm
      | error e => simp [completesMessage] at hm

/-- C10: if the stream reaches end of stream without any `meta` or
`error` frame having been processed, the cursor is nevertheless marked
complete, its rows are whatever `row` frames were buffered (in order),
its error stays `null`, `initialized` stays false, and both counters stay
0. -/
theorem c10_eof_without_meta (ms : List StreamMessage)
    (h : ∀ m ∈ ms, completesMessage m = false) :
    (((ms.map StreamEvent.msg ++ [StreamEvent.eof]).foldl applyEvent
        ClientSqlCursor.init).streamingComplete = true) ∧
    ((ms.map StreamEvent.msg ++ [StreamEvent.eof]).foldl applyEvent
        ClientSqlCursor.init).error = none ∧
    ((ms.map StreamEvent.msg ++ [StreamEvent.eof]).foldl applyEvent
        ClientSqlCursor.init).initialized = false ∧
    ((ms.map StreamEvent.msg ++ [StreamEvent.eof]).foldl applyEvent
        ClientSqlCursor.init).rowsRead = 0 ∧
    ((ms.map StreamEvent.msg ++ [StreamEvent.eof]).foldl applyEvent
        ClientSqlCursor.init).rowsWritten = 0 ∧
    ((ms.map StreamEvent.msg ++ [StreamEvent.eof]).foldl applyEvent
        ClientSqlCursor.init).rows = ms.filterMap rowPayload := by
  have hrec := eof_run_no_meta ms ClientSqlCursor.init h
  simpa [ClientSqlCursor.init] using hrec

/-- C10 witness: a columns frame and one row frame, then end of stream. -/
theorem c10_witness :
    ((([StreamMessage.columns [lit "a"], StreamMessage.row [JsonValue.int 7]].map
        StreamEvent.msg ++ [StreamEvent.eof]).foldl applyEvent
      ClientSqlCursor.init).error = none) :=
  (c10_eof_without_meta _ (by decide)).2.1

/-! ## Buffer overflow helpers -/

/-- An aborted read loop ignores further chunks. -/
theorem processChunk_aborted {st : ConsumerState} (h : st.aborted = true)
    (ch : List Char) : processChunk st ch = st := by
  unfold processChunk
  rw [if_pos h]

theorem foldl_processChunk_aborted {st : ConsumerState} (h : st.aborted = true)
    (more : List (List Char)) : more.foldl processChunk st = st := by
  induction more with
  | nil => rfl
  | cons ch rest ih => rw [List.foldl_cons, processChunk_aborted h, ih]

/-- The overflow step: when appending a chunk pushes the buffer past
`MAX_BUFFER_SIZE`, the loop throws; the catch feeds the overflow error to
the cursor, completes streaming, and the loop ends. -/
theorem processChunk_overflow {st : ConsumerState} (hab : st.aborted = false)
    {ch : List Char} (hlen : (st.buffer ++ ch).length > MAX_BUFFER_SIZE) :
    processChunk st ch =
      { buffer := st.buffer ++ ch,
        cursor := completeStreaming
          (processStreamMessage st.cursor (.error bufferOverflowError)),
        aborted := true } := by
  unfold processChunk
  rw [if_neg (by simp [hab]), if_pos hlen]

/-! ## Claim C8 -/

/-- C8: if appending a received chunk makes the internal text buffer
exceed `MAX_BUFFER_SIZE` (1 MB), the cursor is aborted fatally: its error
field is set to the buffer-overflow message, it is marked complete, and no
further chunk of that stream (nor its end-of-stream handling) changes the
state again. -/
theorem c8_buffer_overflow_aborts (st : ConsumerState) (chunk : List Char)
    (hab : st.aborted = false)
    (hlen : (st.buffer ++ chunk).length > MAX_BUFFER_SIZE) :
    (processChunk st chunk).cursor.error = some bufferOverflowError ∧
    (processChunk st chunk).cursor.streamingComplete = true ∧
    (processChunk st chunk).aborted = true ∧
    (∀ more : List (List Char),
      more.foldl processChunk (processChunk st chunk) = processChunk st chunk) ∧
    finishStream (processChunk st chunk) = processChunk st chunk := by
  rw [processChunk_overflow hab hlen]
  refine ⟨?_, rfl, rfl, ?_, ?_⟩
  · simp [processStreamMessage, completeStreaming, bufferOverflowError, lit]
  · intro more
    exact foldl_processChunk_aborted rfl more
  · unfold finishStream
    rw [if_pos rfl]

/-- C8 witness: a fresh consumer hit by a chunk one character over the
bound. -/
theorem c8_witness :
    (processChunk { buffer := [], cursor := ClientSqlCursor.init, aborted := false }
      (List.replicate (MAX_BUFFER_SIZE + 1) 'a')).aborted = true :=
  (c8_buffer_overflow_aborts _ _ rfl
    (by rw [List.nil_append, List.length_replicate]; omega)).2.2.1

/-! ## Claim C2 -/

/-- C2 counterexample payload: a row whose single string value is
1 MB of `a`s, so the encoded stream exceeds the consumer's buffer
bound. -/
def c2bigStr : JStr := List.replicate MAX_BUFFER_SIZE 'a'

/-- C2 counterexample frame sequence: Columns, one Row, Meta. -/
def c2frames : List StreamMessage :=
  [.columns [lit "id"], .row [.str c2bigStr], .meta 1 0]

theorem encStringBody_replicate_a (n : Nat) :
    encStringBody (List.replicate n 'a') = List.replicate n 'a' := by
  induction n with
  | zero => rfl
  | succ n ih =>
      show encStringBody ('a' :: List.replicate n 'a') = _
      unfold encStringBody at ih ⊢
      rw [List.flatMap_cons, ih]
      rfl

/-- The row frame of the counterexample written as plain appends. -/
theorem c2row_expand : encFrame (.row [.str c2bigStr]) =
    lit "\x7b\"type\":\"row\",\"data\":[" ++
      ('"' :: (List.replicate MAX_BUFFER_SIZE 'a' ++ ['"'])) ++ lit "]\x7d" := by
  show lit "\x7b\"type\":\"row\",\"data\":[" ++ encString c2bigStr ++ lit "]\x7d" = _
  rw [show encString c2bigStr =
    '"' :: (encStringBody c2bigStr ++ ['"']) from rfl]
  rw [show encStringBody c2bigStr = List.replicate MAX_BUFFER_SIZE 'a' from
    encStringBody_replicate_a MAX_BUFFER_SIZE]

/-- Length bound of the counterexample stream, with the payload abstract so
the arithmetic never touches the megabyte-sized concrete list. -/
theorem c2len_core (R : List Char) (hNlen : R.length = MAX_BUFFER_SIZE) :
    ((encFrame (.columns [lit "id"]) ++ ['\n']) ++
      ((lit "\x7b\"type\":\"row\",\"data\":[" ++
          ('"' :: (R ++ ['"'])) ++ lit "]\x7d" ++ ['\n']) ++
        ((encFrame (.meta 1 0) ++ ['\n']) ++ ([] : List Char)))).length >
      MAX_BUFFER_SIZE := by
  have hc : ('"' :: (R ++ ['"'])).length = R.length + 2 := by
    rw [List.length_cons, List.length_append]; rfl
  simp only [List.length_append, List.length_nil]
  rw [hc]
  have l1 : (encFrame (.columns [lit "id"])).length = 32 := rfl
  have l2 : (lit "\x7b\"type\":\"row\",\"data\":[").length = 22 := rfl
  have l3 : (lit "]\x7d").length = 2 := rfl
  have l4 : (encFrame (.meta 1 0)).length = 55 := rfl
  have l5 : (['\n'] : List Char).length = 1 := rfl
  rw [l1, l2, l3, l4, l5, hNlen]
  omega

/-- C2 counterexample: delivering the whole encoded stream as one chunk
makes the consumer abort on the buffer bound, so its final cursor differs
from the directly applied frame sequence — the unrestricted chunking claim
is false. -/
theorem c2_chunking_counterexample :
    (consumeFrom ClientSqlCursor.init [encStream c2frames true]).cursor.rows = [] ∧
    (completeStreaming (c2frames.foldl processStreamMessage
      ClientSqlCursor.init)).rows = [[JsonValue.str c2bigStr]] ∧
    (consumeFrom ClientSqlCursor.init [encStream c2frames true]).cursor ≠
      completeStreaming (c2frames.foldl processStreamMessage ClientSqlCursor.init) := by
  have hlen : (encStream c2frames true).length > MAX_BUFFER_SIZE := by
    show ((encFrame (.columns [lit "id"]) ++ ['\n']) ++
      ((encFrame (.row [.str c2bigStr]) ++ ['\n']) ++
        ((encFrame (.meta 1 0) ++ ['\n']) ++ []))).length > MAX_BUFFER_SIZE
    rw [c2row_expand]
    exact c2len_core (List.replicate MAX_BUFFER_SIZE 'a')
      (List.length_replicate MAX_BUFFER_SIZE 'a')
  have hstate : (consumeFrom ClientSqlCursor.init [encStream c2frames true]).cursor =
      completeStreaming (processStreamMessage ClientSqlCursor.init
        (.error bufferOverflowError)) := by
    unfold consumeFrom
    rw [List.foldl_cons, List.foldl_nil,
      processChunk_overflow rfl (by simpa using hlen)]
    unfold finishStream
    rw [if_pos rfl]
  refine ⟨by rw [hstate]; rfl, rfl, ?_⟩
  rw [hstate]
  intro heq
  have h1 : (completeStreaming (processStreamMessage ClientSqlCursor.init
      (.error bufferOverflowError))).rows = [] := rfl
  have h2 : (completeStreaming (c2frames.foldl processStreamMessage
      ClientSqlCursor.init)).rows = [[JsonValue.str c2bigStr]] := rfl
  rw [heq, h2] at h1
  exact absurd h1 (by simp)

/-- C2 amended: for every frame sequence and every way of chunking its
encoded stream — trailing newline present or not — **provided the encoded
stream fits within the consumer's 1 MB buffer bound** (so that the
overflow guard cannot fire), the consumer decodes and applies exactly the
encoded frames in order and ends in the same cursor state as direct
application, marked complete. -/
theorem c2_roundtrip_of_bounded_streams (frames : List StreamMessage)
    (trailing : Bool) (chunks : List (List Char))
    (hchunks : chunks.flatten = encStream frames trailing)
    (hsize : (encStream frames trailing).length ≤ MAX_BUFFER_SIZE) :
    (consumeFrom ClientSqlCursor.init chunks).cursor =
      completeStreaming (frames.foldl processStreamMessage ClientSqlCursor.init) :=
  consumeFrom_encStream ClientSqlCursor.init frames trailing chunks hchunks hsize

/-- C2 witness frames. -/
def c2wframes : List StreamMessage :=
  [.columns [lit "a"], .row [.int 1], .meta 1 0]

/-- C2 witness: the stream without trailing newline, split mid-frame at
offset 7. -/
theorem c2_roundtrip_witness :
    (consumeFrom ClientSqlCursor.init
      [(encStream c2wframes false).take 7, (encStream c2wframes false).drop 7]).cursor =
      completeStreaming (c2wframes.foldl processStreamMessage ClientSqlCursor.init) :=
  c2_roundtrip_of_bounded_streams c2wframes false _ (by decide) (by decide)

theorem streamingComplete_foldl (c : ClientSqlCursor) (evs : List StreamEvent) :
    ((evs.foldl applyEvent c).streamingComplete) =
      (c.streamingComplete || evs.any completesEvent) := by
  induction evs generalizing c with
  | nil => simp
  | cons e rest ih =>
      cases e with
      | msg m =>
          cases m <;>
            simp [applyEvent, processStreamMessage, completeStreaming, completesEvent, ih]
      | eof => simp [applyEvent, completeStreaming, completesEvent, ih]

/-! ## Claim C5 -/

theorem waitResolveTimeF_of_complete (evs : List StreamEvent) (fuel t : Nat)
    (h : (stateAt evs t).streamingComplete = true) :
    waitResolveTimeF evs fuel t = some t := by
  cases fuel <;> simp [waitResolveTimeF, h]

theorem waitResolveTimeF_sound (evs : List StreamEvent) (fuel t tr : Nat)
    (h : waitResolveTimeF evs fuel t = some tr) :
    t ≤ tr ∧ (stateAt evs tr).streamingComplete = true ∧
      ∀ u, t ≤ u → u < tr → (stateAt evs u).streamingComplete = false := by
  induction fuel generalizing t with
  | zero =>
      unfold waitResolveTimeF at h
      split at h
      · next hc =>
          cases h
          exact ⟨le_refl _, hc, fun u hu1 hu2 => absurd hu2 (by omega)⟩
      · cases h
  | succ fuel ih =>
      unfold waitResolveTimeF at h
      split at h
      · next hc =>
          cases h
          exact ⟨le_refl _, hc, fun u hu1 hu2 => absurd hu2 (by omega)⟩
      · next hc =>
          have hc2 : (stateAt evs t).streamingComplete = false := by
            simpa using hc
          split at h
          · obtain ⟨h1, h2, h3⟩ := ih (t + 1) h
            refine ⟨by omega, h2, fun u hu1 hu2 => ?_⟩
            rcases Nat.eq_or_lt_of_le hu1 with he | hl
            · exact he ▸ hc2
            · exact h3 u hl hu2
          · cases h

theorem stateAt_of_le {evs : List StreamEvent} {u : Nat} (h : evs.length ≤ u) :
    stateAt evs u = stateAt evs evs.length := by
  unfold stateAt
  rw [List.take_of_length_le h, List.take_length]

theorem waitResolveTimeF_none (evs : List StreamEvent) (fuel t : Nat)
    (hfuel : evs.length ≤ t + fuel)
    (h : waitResolveTimeF evs fuel t = none) :
    ∀ u, t ≤ u → (stateAt evs u).streamingComplete = false := by
  induction fuel generalizing t with
  | zero =>
      unfold waitResolveTimeF at h
      split at h
      · cases h
      · next hc =>
          have hc2 : (stateAt evs t).streamingComplete = false := by simpa using hc
          intro u hu
          have hlen : evs.length ≤ t := by omega
          rw [stateAt_of_le (le_trans hlen hu)]
          rw [stateAt_of_le hlen] at hc2
          exact hc2
  | succ fuel ih =>
      unfold waitResolveTimeF at h
      split at h
      · cases h
      · next hc =>
          have hc2 : (stateAt evs t).streamingComplete = false := by simpa using hc
          split at h
          · intro u hu
            rcases Nat.eq_or_lt_of_le hu with he | hl
            · exact he ▸ hc2
            · exact ih (t + 1) (by omega) h u hl
          · next hlt =>
              have hlen : evs.length ≤ t := by omega
              intro u hu
              rw [stateAt_of_le (le_trans hlen hu)]
              rw [stateAt_of_le hlen] at hc2
              exact hc2

theorem waitResolveTimeF_none_of (evs : List StreamEvent) (fuel t : Nat)
    (h : ∀ u, t ≤ u → (stateAt evs u).streamingComplete = false) :
    waitResolveTimeF evs fuel t = none := by
  induction fuel generalizing t with
  | zero => simp [waitResolveTimeF, h t (le_refl t)]
  | succ fuel ih =>
      have ht := h t (le_refl t)
      unfold waitResolveTimeF
      rw [if_neg (by simp [ht])]
      split
      · exact ih (t + 1) (fun u hu => h u (by omega))
      · rfl

/-- C5: `toArray` called at time `t` of an event schedule (1) returns
immediately — at `t` itself — when the cursor is already complete,
(2) otherwise resolves exactly at the first completion instant `tr ≥ t`
(the cursor is complete at `tr` and at no earlier instant of the wait),
with the value built from the rows accumulated by `tr`, pairing each row's
positional values with the column names via `rowToRecord`, and (3) never
resolves precisely when the cursor never completes from `t` on. -/
theorem c5_toarray_completion_gating (evs : List StreamEvent) (t : Nat) :
    ((stateAt evs t).streamingComplete = true →
      toArrayAt evs t = some (t, resultsList (stateAt evs t))) ∧
    (∀ tr out, toArrayAt evs t = some (tr, out) →
      t ≤ tr ∧ (stateAt evs tr).streamingComplete = true ∧
      (∀ u, t ≤ u → u < tr → (stateAt evs u).streamingComplete = false) ∧
      out = (stateAt evs tr).rows.map (rowToRecord (stateAt evs tr).columnNames)) ∧
    (toArrayAt evs t = none ↔
      ∀ u, t ≤ u → (stateAt evs u).streamingComplete = false) := by
  refine ⟨?_, ?_, ?_⟩
  · intro h
    unfold toArrayAt waitResolveTime
    rw [waitResolveTimeF_of_complete evs _ t h]
    rfl
  · intro tr out h
    unfold toArrayAt at h
    cases hw : waitResolveTime evs t with
    | none => rw [hw] at h; cases h
    | some tw =>
        rw [hw] at h
        have hw2 : waitResolveTimeF evs (evs.length - t) t = some tw := hw
        obtain ⟨h1, h2, h3⟩ := waitResolveTimeF_sound evs _ t tw hw2
        have htr : tw = tr ∧ resultsList (stateAt evs tw) = out := by
          constructor
          · exact congrArg (fun p => (Option.getD p (0, [])).1) h
          · exact congrArg (fun p => (Option.getD p (0, [])).2) h
        obtain ⟨he1, he2⟩ := htr
        subst he1
        refine ⟨h1, h2, h3, ?_⟩
        rw [← he2]
        rfl
  · unfold toArrayAt waitResolveTime
    constructor
    · intro h
      have hn : waitResolveTimeF evs (evs.length - t) t = none := by
        cases hv : waitResolveTimeF evs (evs.length - t) t with
        | none => rfl
        | some tw => rw [hv] at h; cases h
      exact waitResolveTimeF_none evs _ t (by omega) hn
    · intro h
      rw [waitResolveTimeF_none_of evs _ t h]
      rfl

/-- C5 witness schedule: columns, one row, meta, end of stream. -/
def c5evs : List StreamEvent :=
  [.msg (.columns [lit "a"]), .msg (.row [.int 1]), .msg (.meta 1 0), .eof]

/-- C5 witness: a call after the meta frame (time 3) resolves immediately
at time 3 with the accumulated rows. -/
theorem c5_witness :
    (stateAt c5evs 3).streamingComplete = true ∧
    toArrayAt c5evs 3 = some (3, resultsList (stateAt c5evs 3)) :=
  ⟨by decide, (c5_toarray_completion_gating c5evs 3).1 (by decide)⟩

/-! ## Claim C3 -/

/-- Is this frame an `error` message? -/
def isErrorFrame : StreamMessage → Bool
  | .error _ => true
  | _ => false

theorem error_foldl_no_error (frames : List StreamMessage) (c : ClientSqlCursor)
    (h : ∀ m ∈ frames, isErrorFrame m = false) :
    (frames.foldl processStreamMessage c).error = c.error := by
  induction frames generalizing c with
  | nil => rfl
  | cons m rest ih =>
      have hm : isErrorFrame m = false := h m (by simp)
      have hrest : ∀ m2 ∈ rest, isErrorFrame m2 = false :=
        fun m2 hm2 => h m2 (by simp [hm2])
      rw [List.foldl_cons, ih _ hrest]
      cases m <;> simp_all [isErrorFrame, processStreamMessage, completeStreaming]

theorem failedAfterMsg_ne_nil (m : JStr) : failedAfterMsg m ≠ [] := by
  simp [failedAfterMsg, lit]

/-- C3: the retry ceiling of `exec` (with `MAX_RETRIES = 1`, attempts are
numbered 0 and 1).  If attempt 0 fails then: (a) if attempt 1 also fails
with message `m1`, the single cursor ends errored with
`"Failed after 1 retries: " ++ m1` and completed; (b) if attempt 1
succeeds with a body that chunks a well-formed encoded stream containing
no `error` frame and fitting the consumer's buffer, the same cursor ends
completed with no error, holding exactly the decoded frames' effect. -/
theorem c3_retry_ceiling (attempt : Nat → Except JStr (List (List Char)))
    (m0 : JStr) (h0 : attempt 0 = .error m0) :
    (∀ m1, attempt 1 = .error m1 →
      (execModel attempt).error = some (failedAfterMsg m1) ∧
      (execModel attempt).streamingComplete = true) ∧
    (∀ chunks frames trailing, attempt 1 = .ok chunks →
      chunks.flatten = encStream frames trailing →
      (encStream frames trailing).length ≤ MAX_BUFFER_SIZE →
      (∀ m ∈ frames, isErrorFrame m = false) →
      (execModel attempt).error = none ∧
      (execModel attempt).streamingComplete = true ∧
      execModel attempt =
        completeStreaming (frames.foldl processStreamMessage ClientSqlCursor.init)) := by
  have hstep : execModel attempt =
      (match attempt 1 with
        | .ok chunks => (consumeFrom ClientSqlCursor.init chunks).cursor
        | .error msg => completeStreaming
            (processStreamMessage ClientSqlCursor.init
              (.error (failedAfterMsg msg)))) := by
    show execLoopF attempt (MAX_RETRIES + 1 - 0) 0 ClientSqlCursor.init = _
    rw [show MAX_RETRIES + 1 - 0 = 2 from rfl]
    unfold execLoopF
    rw [if_pos (by simp [MAX_RETRIES]), h0]
    simp only [MAX_RETRIES]
    rw [if_pos (by omega)]
    unfold execLoopF
    rw [if_pos (by simp [MAX_RETRIES])]
    cases h1 : attempt 1 with
    | ok chunks => simp
    | error m1 =>
        simp only [MAX_RETRIES]
        rw [if_neg (by omega)]
  constructor
  · intro m1 h1
    rw [hstep, h1]
    constructor
    · simp [completeStreaming, processStreamMessage,
        failedAfterMsg_ne_nil m1]
    · rfl
  · intro chunks frames trailing h1 hchunks hsize
    intro herr
    have hc := consumeFrom_encStream ClientSqlCursor.init frames trailing chunks
      hchunks hsize
    have hrun : execModel attempt = (consumeFrom ClientSqlCursor.init chunks).cursor := by
      rw [hstep, h1]
    rw [hrun, hc]
    refine ⟨?_, rfl, rfl⟩
    show (frames.foldl processStreamMessage ClientSqlCursor.init).error = none
    rw [error_foldl_no_error frames ClientSqlCursor.init herr]
    rfl

/-- C3 witness transports: both attempts fail; attempt 0 fails then
attempt 1 delivers a one-frame stream. -/
def c3bothFail : Nat → Except JStr (List (List Char)) :=
  fun _ => .error (lit "net down")

/-- C3 witness transport that succeeds on attempt 1. -/
def c3thenOk : Nat → Except JStr (List (List Char)) :=
  fun r => if r = 0 then .error (lit "net down")
    else .ok [encStream [.meta 0 0] true]

/-- C3 witness: both retry-ceiling branches at concrete transports. -/
theorem c3_witness :
    ((execModel c3bothFail).error = some (failedAfterMsg (lit "net down")) ∧
      (execModel c3bothFail).streamingComplete = true) ∧
    ((execModel c3thenOk).error = none ∧
      (execModel c3thenOk).streamingComplete = true) := by
  refine ⟨(c3_retry_ceiling c3bothFail (lit "net down") rfl).1 (lit "net down") rfl, ?_⟩
  have h := (c3_retry_ceiling c3thenOk (lit "net down") rfl).2
    [encStream [.meta 0 0] true] [.meta 0 0] true rfl (by decide) (by decide)
    (by decide)
  exact ⟨h.1, h.2.1⟩

/-! ## Claim C4 -/

/-- C4 statements: A succeeds, B fails, C would succeed. -/
def c4A : Query := ⟨lit "INSERT A", []⟩

/-- The failing statement of the C4 scenario. -/
def c4B : Query := ⟨lit "FAIL B", []⟩

/-- The statement after the failure, which must never run. -/
def c4C : Query := ⟨lit "INSERT C", []⟩

/-- The result statement A produces. -/
def c4resA : StmtResult := ⟨[], [], 0, 1⟩

/-- C4 statement runner: B throws, everything else succeeds. -/
def c4runStmt (q : Query) : Except JStr StmtResult :=
  if q = c4B then .error (lit "SQL error") else .ok c4resA

/-- C4 counterexample: on `[A, fail B, C]` the loop does stop after B
(C is never executed), but the endpoint answers with the 500 `{error}`
response of the outer catch — not with
`{result: [resultA], transaction: {success: false}}` as the spec claims,
since the inner catch rethrows after setting the flag. -/
theorem c4_counterexample :
    (runTransactionLoop c4runStmt [c4A, c4B, c4C]).1 = [c4A, c4B] ∧
    transactionEndpoint c4runStmt [c4A, c4B, c4C] =
      .errorResponse (lit "SQL error") ∧
    transactionEndpoint c4runStmt [c4A, c4B, c4C] ≠
      .results [c4resA] false := by decide

/-- Does this statement run without throwing? -/
def stmtOk (runStmt : Query → Except JStr StmtResult) (q : Query) : Bool :=
  match runStmt q with
  | .ok _ => true
  | .error _ => false

/-- C4 amended: if every statement before position `i` succeeds and
statement `i` throws `msg`, the loop executes exactly the first `i + 1`
statements (everything after the failure is skipped) and the endpoint
returns the 500 `{error: msg}` response — the accumulated results and the
`success := false` flag are discarded by the rethrow, so no
`transaction.success = false` body is ever sent. -/
theorem c4_batch_short_circuit (runStmt : Query → Except JStr StmtResult)
    (qs : List Query) (i : Nat) (hi : i < qs.length)
    (hok : ∀ q ∈ qs.take i, stmtOk runStmt q = true)
    (msg : JStr) (hfail : runStmt (qs.getD i ⟨[], []⟩) = .error msg) :
    (runTransactionLoop runStmt qs).1 = qs.take (i + 1) ∧
    (runTransactionLoop runStmt qs).2 = .error msg ∧
    transactionEndpoint runStmt qs = .errorResponse msg := by
  suffices h : (runTransactionLoop runStmt qs).1 = qs.take (i + 1) ∧
      (runTransactionLoop runStmt qs).2 = .error msg by
    refine ⟨h.1, h.2, ?_⟩
    unfold transactionEndpoint
    rw [h.2]
  induction i generalizing qs with
  | zero =>
      cases qs with
      | nil => simp at hi
      | cons q rest =>
          have hq : runStmt q = .error msg := hfail
          constructor
          · show (runTransactionLoop runStmt (q :: rest)).1 = [q]
            simp [runTransactionLoop, hq]
          · show (runTransactionLoop runStmt (q :: rest)).2 = .error msg
            simp [runTransactionLoop, hq]
  | succ i ih =>
      cases qs with
      | nil => simp at hi
      | cons q rest =>
          have hqok : stmtOk runStmt q = true := hok q (by simp)
          obtain ⟨r, hr⟩ : ∃ r, runStmt q = .ok r := by
            unfold stmtOk at hqok
            cases hv : runStmt q with
            | ok r => exact ⟨r, rfl⟩
            | error e => rw [hv] at hqok; simp at hqok
          have hi2 : i < rest.length := by simpa using hi
          have hok2 : ∀ q2 ∈ rest.take i, stmtOk runStmt q2 = true := by
            intro q2 hq2
            exact hok q2 (by simp [hq2])
          have hfail2 : runStmt (rest.getD i ⟨[], []⟩) = .error msg := hfail
          obtain ⟨ih1, ih2⟩ := ih rest hi2 hok2 hfail2
          constructor
          · show (runTransactionLoop runStmt (q :: rest)).1 = q :: rest.take (i + 1)
            simp [runTransactionLoop, hr, ih1]
          · show (runTransactionLoop runStmt (q :: rest)).2 = .error msg
            simp [runTransactionLoop, hr, ih2]

/-- C4 amended witness: the `[A, fail B, C]` scenario at position 1. -/
theorem c4_witness :
    (runTransactionLoop c4runStmt [c4A, c4B, c4C]).1 = [c4A, c4B, c4C].take 2 ∧
    (runTransactionLoop c4runStmt [c4A, c4B, c4C]).2 = .error (lit "SQL error") ∧
    transactionEndpoint c4runStmt [c4A, c4B, c4C] =
      .errorResponse (lit "SQL error") :=
  c4_batch_short_circuit c4runStmt [c4A, c4B, c4C] 1 (by decide)
    (by decide) (lit "SQL error") rfl

/-! ## Claim C9 -/

/-- C9: the cursor handed to the caller by `execWithMirroring` is exactly
the primary execution's cursor under every mirror configuration — absent,
succeeding, or always failing — so the primary outcome is identical across
configurations; and the detached mirror task always settles successfully
(its errors are caught and only logged), so nothing is raised to the
caller. -/
theorem c9_mirror_isolation (primaryExec : Query → ClientSqlCursor)
    (mirror : Option (Query → Except JStr Unit)) (q : Query) :
    (execWithMirroring primaryExec mirror q).1 = primaryExec q ∧
    (∀ mirror2 : Option (Query → Except JStr Unit),
      (execWithMirroring primaryExec mirror q).1 =
        (execWithMirroring primaryExec mirror2 q).1) ∧
    (execWithMirroring primaryExec mirror q).2 =
      mirror.map (fun _ => Except.ok ()) := by
  refine ⟨?_, ?_, ?_⟩
  · cases mirror <;> rfl
  · intro mirror2
    cases mirror <;> cases mirror2 <;> rfl
  · cases mirror with
    | none => rfl
    | some m =>
        show some (mirrorTask m q) = some (.ok ())
        unfold mirrorTask
        cases hm : m q with
        | ok u => cases u; rfl
        | error e => rfl

end Dorm
